import Mathlib

/-!
# CloxCache — shallow embedding and verification

This file embeds the core engine of the CloxCache repository
(`cache` package) in Lean 4 and settles a list of claims about it.

The repository snapshot carries several generations of the engine; the
specification designates the synchronous ghost-queue, adaptive-threshold
variant as the specified core (spec §9, "the specified core is the
synchronous, ghost-queue variant").  That variant is embedded below in
namespace `Clox`.  The older protected-frequency variant without ghosts
(the first document of `src/cache/cloxcache.go`, whose `Get` is the code
cited by the frame-effect claim) is embedded in namespace `PF`.

Modelling conventions:
* keys are byte sequences, modelled as `List Nat`;
* Go `uint64` / `uint32` counters are modelled as `Nat`, `int64` / `int32`
  counters as `Int`; masking by a power of two (`h & (n-1)`) is modelled as
  `h % n` and shifting (`h >> b`) as `h / 2 ^ b`, which agree with the Go
  operations for power-of-two sizes;
* atomic loads/stores and CAS loops execute sequentially, so a saturating
  CAS loop becomes a single conditional update;
* chains of `recordNode` linked by the atomic `next` pointer are modelled
  as Lean lists (head of the list = head of the chain); unlinking a node
  via the predecessor's `next` pointer becomes `List.eraseIdx`;
* the scanner's best-victim trackers are initialised in Go with the
  sentinel `^uint64(0)`; timestamps here are unbounded naturals, so the
  trackers are modelled as `Option` values ("no candidate yet") instead of
  a sentinel access value.
-/

namespace Clox

/-- Byte-sequence view of a cache key (`string` or `[]byte` in Go). -/
abbrev KeyBytes := List Nat

/-- `keysEqual` from the source: length comparison followed by a byte loop. -/
def keysEqual : KeyBytes → KeyBytes → Bool
  | [], [] => true
  | a :: as, b :: bs => a == b && keysEqual as bs
  | _, _ => false

/-- `copyKey` from the source: for byte-slice keys it allocates a fresh
buffer with the same bytes.  On immutable byte lists the copy is
value-identical to the original. -/
def copyKey (key : KeyBytes) : KeyBytes := key

/-- `maxFrequency` constant (frequency counter saturates at 15). -/
def maxFrequency : Int := 15

/-- `initialFreq` constant (starting frequency for new keys). -/
def initialFreq : Int := 1

/-- `defaultProtectedFreqThreshold` constant (initial per-shard `k`). -/
def defaultProtectedFreqThreshold : Int := 2

/-- `adaptiveCheckInterval` constant (evictions between adaptation checks). -/
def adaptiveCheckInterval : Nat := 1000

/-- `defaultRateLow` constant (0.25 scaled by 10000). -/
def defaultRateLow : Nat := 2500

/-- `defaultRateHigh` constant (0.50 scaled by 10000). -/
def defaultRateHigh : Nat := 5000

/-- `minRateLow` constant. -/
def minRateLow : Nat := 500

/-- `maxRateLow` constant. -/
def maxRateLow : Nat := 4000

/-- `minRateHigh` constant. -/
def minRateHigh : Nat := 3000

/-- `maxRateHigh` constant. -/
def maxRateHigh : Nat := 8000

/-- `thresholdLearningRate` constant (0.10 scaled by 10000). -/
def thresholdLearningRate : Nat := 1000

/-- `hitRateWindowSize` constant. -/
def hitRateWindowSize : Nat := 2000

/-- `recordNode`: a cache entry with collision chaining.  `freq > 0` means a
live entry with that frequency; `freq ≤ 0` means a ghost whose remembered
frequency is `|freq|`. -/
structure RecordNode (V : Type) where
  value : V
  keyHash : Nat
  freq : Int
  lastAccess : Nat
  key : KeyBytes
deriving DecidableEq

/-- `shard`: a portion of the cache slots, together with the per-shard
capacity, ghost and adaptive-threshold bookkeeping from the source. -/
structure Shard (V : Type) where
  slots : List (List (RecordNode V))
  entryCount : Int
  capacity : Int
  hand : Nat
  timestamp : Nat
  ghostCount : Int
  ghostCapacity : Int
  k : Int
  evictedUnprotected : Nat
  evictedProtected : Nat
  reachedProtected : Nat
  lastAdaptCheck : Nat
  windowHits : Nat
  windowOps : Nat
  prevHitRate : Nat
  lastKDirection : Int
  rateLow : Nat
  rateHigh : Nat
deriving DecidableEq

/-- An all-zero shard, used only as the out-of-range default of list
lookups (well-formed states never consult it). -/
def Shard.dflt (V : Type) : Shard V :=
  ⟨[], 0, 0, 0, 0, 0, 0, 0, 0, 0, 0, 0, 0, 0, 0, 0, 0, 0⟩

/-- `CloxCache`: the sharded cache with its configuration and global
statistics counters. -/
structure CloxCache (V : Type) where
  shards : List (Shard V)
  numShards : Nat
  shardBits : Nat
  collectStats : Bool
  sweepPercent : Nat
  hits : Nat
  misses : Nat
  evictions : Nat
deriving DecidableEq

/-- `Config` passed to `NewCloxCache` (Go `int` fields are modelled as
`Int` so that non-positive configurations are representable). -/
structure Config where
  NumShards : Int
  SlotsPerShard : Int
  Capacity : Int
  CollectStats : Bool
  SweepPercent : Int

/-- The shard owning a hash: `hash & (numShards-1)`, i.e. `hash % numShards`
for the power-of-two shard count. -/
def shardIdOf (c : CloxCache V) (hash : Nat) : Nat := hash % c.numShards

/-- Number of slots per shard, read off the first shard as in the source
(`len(c.shards[0].slots)`). -/
def slotsLen (c : CloxCache V) : Nat := (c.shards.getD 0 (Shard.dflt V)).slots.length

/-- The slot for a hash: `(hash >> shardBits) & (slotsPerShard-1)`. -/
def slotIdOf (c : CloxCache V) (hash : Nat) : Nat := (hash / 2 ^ c.shardBits) % slotsLen c

/-- The shard at an index (out of range yields the default shard). -/
def shardAt (c : CloxCache V) (i : Nat) : Shard V := c.shards.getD i (Shard.dflt V)

/-- The chain stored in slot `q` of shard `sh`. -/
def Shard.chain (sh : Shard V) (q : Nat) : List (RecordNode V) := sh.slots.getD q []

/-- Result of the chain walk performed by `Get`: the lookup answer, the
updated chain, the updated shard timestamp, and how many graduation events
(`reachedProtected`) were recorded. -/
structure GetWalkResult (V : Type) where
  found : Option V
  chain : List (RecordNode V)
  ts : Nat
  grad : Nat
deriving DecidableEq

/-- The lock-free chain walk of `Get`: skip ghosts and non-matching nodes;
on the first live match bump `freq` (saturating at 15), count a graduation
event when the pre-bump `freq` equals the shard's `k` under capacity
pressure, and refresh `lastAccess` from the shard timestamp. -/
def getWalk (hash : Nat) (key : KeyBytes) (k entryCount capacity : Int) (ts : Nat) :
    List (RecordNode V) → GetWalkResult V
  | [] => ⟨none, [], ts, 0⟩
  | n :: rest =>
    if n.keyHash == hash && keysEqual n.key key then
      if n.freq ≤ 0 then
        let r := getWalk hash key k entryCount capacity ts rest
        ⟨r.found, n :: r.chain, r.ts, r.grad⟩
      else if n.freq < maxFrequency then
        let g : Nat := if n.freq == k && entryCount ≥ capacity then 1 else 0
        ⟨some n.value, { n with freq := n.freq + 1, lastAccess := ts + 1 } :: rest, ts + 1, g⟩
      else
        ⟨some n.value, n :: rest, ts, 0⟩
    else
      let r := getWalk hash key k entryCount capacity ts rest
      ⟨r.found, n :: r.chain, r.ts, r.grad⟩

/-- `Get` from the source: route by hash, count the window op, walk the
chain, and update the hit/miss statistics. -/
def Get (hashKey : KeyBytes → Nat) (key : KeyBytes) (c : CloxCache V) :
    Option V × CloxCache V :=
  let hash := hashKey key
  let shardID := shardIdOf c hash
  let slotID := slotIdOf c hash
  let sh := shardAt c shardID
  let sh0 := { sh with windowOps := sh.windowOps + 1 }
  let r := getWalk hash key sh.k sh.entryCount sh.capacity sh.timestamp (sh.chain slotID)
  match r.found with
  | some v =>
    let sh1 := { sh0 with
      slots := sh0.slots.set slotID r.chain
      timestamp := r.ts
      reachedProtected := sh0.reachedProtected + r.grad
      windowHits := sh0.windowHits + 1 }
    (some v, { c with
      shards := c.shards.set shardID sh1
      hits := if c.collectStats then c.hits + 1 else c.hits })
  | none =>
    (none, { c with
      shards := c.shards.set shardID sh0
      misses := if c.collectStats then c.misses + 1 else c.misses })

/-- The lock-free update walk of `Put` (before taking the shard mutex): on
the first live match store the value, refresh `lastAccess` and bump `freq`
saturating at 15; ghosts and non-matches are skipped. -/
def putFreeWalk (hash : Nat) (key : KeyBytes) (v : V) (ts1 : Nat) :
    List (RecordNode V) → Option (List (RecordNode V))
  | [] => none
  | n :: rest =>
    if n.keyHash == hash && keysEqual n.key key then
      if n.freq ≤ 0 then
        (putFreeWalk hash key v ts1 rest).map (n :: ·)
      else
        some ({ n with
                  value := v
                  lastAccess := ts1
                  freq := if n.freq ≥ maxFrequency then n.freq else n.freq + 1 } :: rest)
    else
      (putFreeWalk hash key v ts1 rest).map (n :: ·)

/-- The re-walk of `Put` under the shard mutex: the first hash-and-key
match decides.  A ghost is promoted (`freq ← clamp(-freq + 1, 1, 15)`, new
value and timestamp); a live node just gets the new value and timestamp.
The boolean reports whether a ghost was promoted. -/
def putLockedWalk (hash : Nat) (key : KeyBytes) (v : V) (ts1 : Nat) :
    List (RecordNode V) → Option (List (RecordNode V) × Bool)
  | [] => none
  | n :: rest =>
    if n.keyHash == hash && keysEqual n.key key then
      if n.freq ≤ 0 then
        let pf0 := -n.freq + 1
        let pf1 := if pf0 > maxFrequency then maxFrequency else pf0
        let pf := if pf1 < initialFreq then initialFreq else pf1
        some ({ n with value := v, freq := pf, lastAccess := ts1 } :: rest, true)
      else
        some ({ n with value := v, lastAccess := ts1 } :: rest, false)
    else
      (putLockedWalk hash key v ts1 rest).map (fun p => (n :: p.1, p.2))

/-- The three best-victim trackers of the eviction scan, each an optional
`(slot, chain index, lastAccess)` triple.  The Go code initialises the best
access to `^uint64(0)`; with unbounded natural timestamps this is modelled
as `none`. -/
structure ScanSt (V : Type) where
  low : Option (Nat × Nat × Nat)
  fb : Option (Nat × Nat × Nat)
  gh : Option (Nat × Nat × Nat)
deriving DecidableEq

/-- Whether an access time beats the tracker's current best
(`access < best`, with the empty tracker beaten by anything). -/
def better : Option (Nat × Nat × Nat) → Nat → Bool
  | none, _ => true
  | some (_, _, best), a => a < best

/-- Processing of one chain node during the eviction scan: ghosts feed the
oldest-ghost tracker; live nodes feed the low-frequency tracker (when
`freq ≤ k`) and the fallback tracker. -/
def scanNode (k : Int) (sid i : Nat) (n : RecordNode V) (st : ScanSt V) : ScanSt V :=
  if n.freq ≤ 0 then
    if better st.gh n.lastAccess then { st with gh := some (sid, i, n.lastAccess) } else st
  else
    let st1 :=
      if n.freq ≤ k ∧ better st.low n.lastAccess then
        { st with low := some (sid, i, n.lastAccess) }
      else st
    if better st1.fb n.lastAccess then { st1 with fb := some (sid, i, n.lastAccess) } else st1

/-- Walk one chain during the eviction scan, carrying the chain index. -/
def scanChainAux (k : Int) (sid : Nat) : Nat → List (RecordNode V) → ScanSt V → ScanSt V
  | _, [], st => st
  | i, n :: rest, st => scanChainAux k sid (i + 1) rest (scanNode k sid i n st)

/-- The scan loop `for scanned := 0; scanned < maxScan; scanned++`,
visiting slot `(startSlot + scanned) % slotsPerShard` at each step. -/
def scanSlots (k : Int) (slots : List (List (RecordNode V))) (S start : Nat) :
    Nat → Nat → ScanSt V → ScanSt V
  | 0, _, st => st
  | left + 1, scanned, st =>
    let sid := (start + scanned) % S
    scanSlots k slots S start left (scanned + 1)
      (scanChainAux k sid 0 (slots.getD sid []) st)

/-- Victim choice: the low-frequency victim wins when present (an
"unprotected" eviction), otherwise the fallback victim ("protected"),
otherwise there is no victim. -/
def chooseVictim (st : ScanSt V) : Option ((Nat × Nat) × Bool) :=
  match st.low with
  | some (s, i, _) => some ((s, i), true)
  | none =>
    match st.fb with
    | some (s, i, _) => some ((s, i), false)
    | none => none

/-- In-place update of the `i`-th element of a list (the pointer-based
in-place mutation of a chain node). -/
def listModify (f : α → α) : List α → Nat → List α
  | [], _ => []
  | a :: as, 0 => f a :: as
  | a :: as, i + 1 => a :: listModify f as i

/-- Go `uint64` subtraction `a - b` on counters modelled as naturals. -/
def usub64 (a b : Nat) : Nat := (a % 2 ^ 64 + (2 ^ 64 - b % 2 ^ 64)) % 2 ^ 64

/-- First block of `adaptThreshold`: when the hit-rate window is full,
learn the rate bands from the effect of the last `k` change and reset the
window.  The float computation `uint64(float64(windowHits) /
float64(windowOps) * 10000)` is modelled by the exact natural computation
`windowHits * 10000 / windowOps`. -/
def adaptBands (sh : Shard V) : Shard V :=
  if sh.windowOps ≥ hitRateWindowSize then
    let currentHitRate := sh.windowHits * 10000 / sh.windowOps
    let sh' :=
      if sh.prevHitRate > 0 ∧ sh.lastKDirection ≠ 0 then
        let improved := sh.prevHitRate < currentHitRate
        if sh.lastKDirection > 0 then
          if improved then
            if minRateHigh + thresholdLearningRate < sh.rateHigh then
              { sh with rateHigh := sh.rateHigh - thresholdLearningRate }
            else sh
          else
            if sh.rateHigh < maxRateHigh - thresholdLearningRate then
              { sh with rateHigh := sh.rateHigh + thresholdLearningRate }
            else sh
        else
          if improved then
            if sh.rateLow < maxRateLow - thresholdLearningRate then
              { sh with rateLow := sh.rateLow + thresholdLearningRate }
            else sh
          else
            if minRateLow + thresholdLearningRate < sh.rateLow then
              { sh with rateLow := sh.rateLow - thresholdLearningRate }
            else sh
      else sh
    { sh' with prevHitRate := currentHitRate, windowHits := 0, windowOps := 0 }
  else sh

/-- Second block of `adaptThreshold`: move `k` by one step according to the
graduation rate.  The float comparisons `rate < rateLow` and `rate >
rateHigh` with `rate = graduated/total` and bands `raw/10000` are modelled
by the exact cross-multiplied comparisons. -/
def adaptK (sh1 : Shard V) (graduated totalEvictions : Nat) : Shard V :=
  let rateLt := graduated * 10000 < sh1.rateLow * totalEvictions
  let rateGt := sh1.rateHigh * totalEvictions < graduated * 10000
  let choice : Shard V × Int :=
    if rateLt ∧ 1 < sh1.k then ({ sh1 with k := sh1.k - 1 }, -1)
    else if rateGt ∧ sh1.k < maxFrequency - 1 then ({ sh1 with k := sh1.k + 1 }, 1)
    else (sh1, 0)
  { choice.1 with lastKDirection := choice.2 }

/-- Third block of `adaptThreshold`: decay the graduation and eviction
counters once they exceed 100. -/
def adaptDecay (graduated totalEvictions : Nat) (sh3 : Shard V) : Shard V :=
  let sh4 := if 100 < graduated then { sh3 with reachedProtected := graduated / 2 } else sh3
  if 100 < totalEvictions then
    { sh4 with evictedUnprotected := sh4.evictedUnprotected / 2
               evictedProtected := sh4.evictedProtected / 2 }
  else sh4

/-- `adaptThreshold` from the source: load the graduation and eviction
counters, bail out when there were no evictions, then run the three blocks
in order. -/
def adaptThreshold (sh : Shard V) : Shard V :=
  let graduated := sh.reachedProtected
  let totalEvictions := sh.evictedUnprotected + sh.evictedProtected
  if totalEvictions = 0 then sh
  else adaptDecay graduated totalEvictions (adaptK (adaptBands sh) graduated totalEvictions)

/-- The ghost-room decision of `evictFromShard`: `canGhost` requires an
unprotected victim and free ghost capacity; when the ghost queue is full
the oldest scanned ghost is unlinked first to make room.  Returns the
updated shard, the victim's (possibly shifted) chain index, and the final
`canGhost` flag.  (The Go code addresses the victim by pointer, so
unlinking the oldest ghost cannot invalidate it; in the index-based model
the victim's index shifts down by one when the ghost sat earlier in the
same chain.) -/
def ghostRoomStep (st : ScanSt V) (sh1 : Shard V) (vs vi : Nat) (isUnprotected : Bool) :
    Shard V × Nat × Bool :=
  let canGhost0 :=
    isUnprotected && decide ((0 : Int) < sh1.ghostCapacity)
      && decide (sh1.ghostCount < sh1.ghostCapacity)
  let ghostFull := isUnprotected && decide ((0 : Int) < sh1.ghostCapacity) && !canGhost0
  if ghostFull then
    match st.gh with
    | some (gs, gi, _) =>
      ({ sh1 with slots := sh1.slots.set gs ((Shard.chain sh1 gs).eraseIdx gi)
                  ghostCount := sh1.ghostCount - 1 },
       (if gs = vs ∧ gi < vi then vi - 1 else vi), true)
    | none => (sh1, vi, canGhost0)
  else (sh1, vi, canGhost0)

/-- The eviction proper: demote the victim in place (negated `freq`,
`entryCount` down, `ghostCount` up) when `canGhost` holds, otherwise
unlink it from its chain; the second component is the bump of the global
eviction counter (only on a full unlink, only when stats are enabled). -/
def demoteOrUnlink (collectStats : Bool) (sh2 : Shard V) (vs vi2 : Nat) (canGhost : Bool) :
    Shard V × Nat :=
  if canGhost then
    ({ sh2 with
        slots := sh2.slots.set vs (listModify (fun n => { n with freq := -n.freq })
          (Shard.chain sh2 vs) vi2)
        entryCount := sh2.entryCount - 1
        ghostCount := sh2.ghostCount + 1 }, 0)
  else
    ({ sh2 with slots := sh2.slots.set vs ((Shard.chain sh2 vs).eraseIdx vi2)
                entryCount := sh2.entryCount - 1 },
     if collectStats then 1 else 0)

/-- The adaptation trigger at the end of `evictFromShard`: on every
thousandth eviction (uint64 difference of the counters) claim the
checkpoint and run the adaptive controller. -/
def adaptCheck (sh3 : Shard V) : Shard V :=
  let totalEv := sh3.evictedUnprotected + sh3.evictedProtected
  if adaptiveCheckInterval ≤ usub64 totalEv sh3.lastAdaptCheck then
    adaptThreshold { sh3 with lastAdaptCheck := totalEv }
  else sh3

/-- The scan budget of an eviction call: `maxScan = S·sweepPercent/100`,
at least 1. -/
def evictMaxScan (c : CloxCache V) (S : Nat) : Nat :=
  let maxScan0 := S * c.sweepPercent / 100
  if maxScan0 < 1 then 1 else maxScan0

/-- The start slot of an eviction scan: the CLOCK hand advanced by
`(maxScan+1)/2`, modulo the slot count. -/
def evictStart (c : CloxCache V) (sid S : Nat) : Nat :=
  ((shardAt c sid).hand + (evictMaxScan c S + 1) / 2) % S

/-- The tracker state produced by an eviction call's scan. -/
def evictScanState (c : CloxCache V) (sid S : Nat) : ScanSt V :=
  scanSlots (shardAt c sid).k (shardAt c sid).slots S (evictStart c sid S)
    (evictMaxScan c S) 0 ⟨none, none, none⟩

/-- `evictFromShard` from the source: compute the scan window, advance the
CLOCK hand, run the scan, pick a victim, demote it to a ghost or unlink
it, and periodically trigger the adaptive controller.  Returns the number
of evicted entries (0 or 1) and the updated cache. -/
def evictFromShard (c : CloxCache V) (shardID slotsPerShard : Nat) : Nat × CloxCache V :=
  let sh := shardAt c shardID
  let advance := (evictMaxScan c slotsPerShard + 1) / 2
  let hand' := sh.hand + advance
  let sh0 := { sh with hand := hand' }
  let st := evictScanState c shardID slotsPerShard
  match chooseVictim st with
  | none => (0, { c with shards := c.shards.set shardID sh0 })
  | some ((vs, vi), isUnprotected) =>
    let sh1 :=
      if isUnprotected then { sh0 with evictedUnprotected := sh0.evictedUnprotected + 1 }
      else { sh0 with evictedProtected := sh0.evictedProtected + 1 }
    let r := ghostRoomStep st sh1 vs vi isUnprotected
    let d := demoteOrUnlink c.collectStats r.1 vs r.2.1 r.2.2
    (1, { c with shards := c.shards.set shardID (adaptCheck d.1)
                 evictions := c.evictions + d.2 })

/-- The eviction loop of `Put`: `for entryCount ≥ capacity { if
evictFromShard() == 0 { return false } }`.  The loop terminates because a
successful eviction decrements `entryCount`; the explicit fuel bounds the
iteration count and is always sufficient (proved below), so the
fuel-exhausted branch is unreachable. -/
def evictLoop (shardID : Nat) : Nat → CloxCache V → Bool × CloxCache V
  | 0, c => (true, c)
  | fuel + 1, c =>
    let sh := shardAt c shardID
    if sh.capacity ≤ sh.entryCount then
      let r := evictFromShard c shardID sh.slots.length
      if r.1 = 0 then (false, r.2) else evictLoop shardID fuel r.2
    else (true, c)

/-- The insertion tail of `Put`: run the eviction loop while the shard is
at or above capacity; on failure return `false`, otherwise link the fresh
node at the head of its slot and bump `entryCount`.  The fuel of the loop
is the bound `entryCount - capacity + 2` on its iteration count (each
successful eviction decrements `entryCount` by one). -/
def putInsert (c1 : CloxCache V) (shardID slotID : Nat) (newNode : RecordNode V) :
    Bool × CloxCache V :=
  let sh1 := shardAt c1 shardID
  let fuel := (sh1.entryCount - sh1.capacity).toNat + 2
  let r := evictLoop shardID fuel c1
  if r.1 then
    let sh' := shardAt r.2 shardID
    let chain2 := Shard.chain sh' slotID
    (true, { r.2 with shards := r.2.shards.set shardID
                        { sh' with slots := sh'.slots.set slotID (newNode :: chain2)
                                   entryCount := sh'.entryCount + 1 } })
  else (false, r.2)

/-- `Put` from the source: a lock-free update pass, then under the shard
mutex a re-check that may update a live node or promote a ghost, then the
eviction loop, then insertion of the fresh node at the chain head. -/
def Put (hashKey : KeyBytes → Nat) (key : KeyBytes) (v : V) (c : CloxCache V) :
    Bool × CloxCache V :=
  let hash := hashKey key
  let shardID := shardIdOf c hash
  let slotID := slotIdOf c hash
  let sh := shardAt c shardID
  match putFreeWalk hash key v (sh.timestamp + 1) (Shard.chain sh slotID) with
  | some chain' =>
    (true, { c with shards := c.shards.set shardID
                      { sh with slots := sh.slots.set slotID chain'
                                timestamp := sh.timestamp + 1 } })
  | none =>
    let ts1 := sh.timestamp + 1
    let newNode : RecordNode V := ⟨v, hash, initialFreq, ts1, copyKey key⟩
    let sh1 := { sh with timestamp := ts1 }
    let c1 := { c with shards := c.shards.set shardID sh1 }
    match putLockedWalk hash key v (sh1.timestamp + 1) (Shard.chain sh1 slotID) with
    | some (chain', promoted) =>
      let sh2 := { sh1 with slots := sh1.slots.set slotID chain'
                            timestamp := sh1.timestamp + 1 }
      let sh3 :=
        if promoted then
          { sh2 with ghostCount := sh2.ghostCount - 1, entryCount := sh2.entryCount + 1 }
        else sh2
      (true, { c with shards := c.shards.set shardID sh3 })
    | none => putInsert c1 shardID slotID newNode

/-- Fuel-based structural version of `bits.Len` (number of bits of `n`);
the fuel `n` always suffices since the argument halves at each step. -/
def bitsLenAux : Nat → Nat → Nat
  | _, 0 => 0
  | 0, _ + 1 => 0
  | fuel + 1, n + 1 => bitsLenAux fuel ((n + 1) / 2) + 1

/-- `bits.Len` from the Go standard library: length in bits of `n`. -/
def bitsLen (n : Nat) : Nat := bitsLenAux n n

/-- `NewCloxCache` from the source: validate the configuration (failing
loudly, modelled as `Except.error` with the panic message), clamp the
sweep percent, distribute capacity across shards, derive the ghost
capacity, and build the shard array. -/
def NewCloxCache (V : Type) (cfg : Config) : Except String (CloxCache V) :=
  if cfg.NumShards ≤ 0 then .error "NumShards must be positive"
  else if cfg.SlotsPerShard ≤ 0 then .error "SlotsPerShard must be positive"
  else if cfg.NumShards.toNat &&& (cfg.NumShards.toNat - 1) ≠ 0 then
    .error "NumShards must be a power of 2"
  else if cfg.SlotsPerShard.toNat &&& (cfg.SlotsPerShard.toNat - 1) ≠ 0 then
    .error "SlotsPerShard must be a power of 2"
  else
    let sweepPercent : Nat :=
      if cfg.SweepPercent ≤ 0 then 15
      else if 100 < cfg.SweepPercent then 100
      else cfg.SweepPercent.toNat
    let numShards := cfg.NumShards.toNat
    let slotsPerShard := cfg.SlotsPerShard.toNat
    let totalCapacity : Int :=
      if cfg.Capacity ≤ 0 then cfg.NumShards * cfg.SlotsPerShard else cfg.Capacity
    let perShardCapacity0 : Int := totalCapacity / cfg.NumShards
    let perShardCapacity : Int := if perShardCapacity0 < 1 then 1 else perShardCapacity0
    let ghostCapacity0 : Int := cfg.SlotsPerShard - perShardCapacity
    let ghostCapacity1 : Int := if ghostCapacity0 < 0 then 0 else ghostCapacity0
    let ghostCapacity : Int :=
      if perShardCapacity < ghostCapacity1 then perShardCapacity else ghostCapacity1
    let sh : Shard V :=
      { slots := List.replicate slotsPerShard []
        entryCount := 0
        capacity := perShardCapacity
        hand := 0
        timestamp := 0
        ghostCount := 0
        ghostCapacity := ghostCapacity
        k := defaultProtectedFreqThreshold
        evictedUnprotected := 0
        evictedProtected := 0
        reachedProtected := 0
        lastAdaptCheck := 0
        windowHits := 0
        windowOps := 0
        prevHitRate := 0
        lastKDirection := 0
        rateLow := defaultRateLow
        rateHigh := defaultRateHigh }
    .ok
      { shards := List.replicate numShards sh
        numShards := numShards
        shardBits := bitsLen (numShards - 1)
        collectStats := cfg.CollectStats
        sweepPercent := sweepPercent
        hits := 0
        misses := 0
        evictions := 0 }

/-! ## Basic lemmas about the embedding -/

theorem keysEqual_refl (a : KeyBytes) : keysEqual a a = true := by
  induction a with
  | nil => rfl
  | cons x xs ih => simp [keysEqual, ih]

theorem keysEqual_eq {a b : KeyBytes} : keysEqual a b = true ↔ a = b := by
  constructor
  · intro h
    induction a generalizing b with
    | nil => cases b with
      | nil => rfl
      | cons y ys => simp [keysEqual] at h
    | cons x xs ih =>
      cases b with
      | nil => simp [keysEqual] at h
      | cons y ys =>
        simp only [keysEqual, Bool.and_eq_true, beq_iff_eq] at h
        simp [h.1, ih h.2]
  · rintro rfl; exact keysEqual_refl a

theorem getD_set (l : List α) (i j : Nat) (a d : α) :
    (l.set i a).getD j d = if i = j ∧ j < l.length then a else l.getD j d := by
  by_cases hij : i = j
  · subst hij
    by_cases hlt : i < l.length
    · simp [List.getD, List.getElem?_set_self, hlt]
    · rw [List.set_eq_of_length_le (by omega)]
      simp [hlt]
  · simp [List.getD, List.getElem?_set_ne hij, hij]

/-- Shape preservation between cache states: the routing data (shard
count, shard bits, shard-array length and per-shard slot counts) agree. -/
def SameShape (c c' : CloxCache V) : Prop :=
  c'.numShards = c.numShards ∧ c'.shardBits = c.shardBits ∧
  c'.shards.length = c.shards.length ∧
  ∀ i, (shardAt c' i).slots.length = (shardAt c i).slots.length

theorem sameShape_refl (c : CloxCache V) : SameShape c c :=
  ⟨rfl, rfl, rfl, fun _ => rfl⟩

theorem sameShape_trans {a b c : CloxCache V} (h1 : SameShape a b) (h2 : SameShape b c) :
    SameShape a c :=
  ⟨h2.1.trans h1.1, h2.2.1.trans h1.2.1, h2.2.2.1.trans h1.2.2.1,
    fun i => (h2.2.2.2 i).trans (h1.2.2.2 i)⟩

theorem slotsLen_eq_of_sameShape {c c' : CloxCache V} (h : SameShape c c') :
    slotsLen c' = slotsLen c :=
  h.2.2.2 0

theorem shardIdOf_eq_of_sameShape {c c' : CloxCache V} (h : SameShape c c') (hash : Nat) :
    shardIdOf c' hash = shardIdOf c hash := by
  simp [shardIdOf, h.1]

theorem slotIdOf_eq_of_sameShape {c c' : CloxCache V} (h : SameShape c c') (hash : Nat) :
    slotIdOf c' hash = slotIdOf c hash := by
  simp [slotIdOf, h.2.1, slotsLen_eq_of_sameShape h]

/-- Well-formedness of a cache state: the shard array matches `numShards`
and every shard has the common positive number of slots. -/
structure WF (c : CloxCache V) : Prop where
  shards_length : c.shards.length = c.numShards
  numShards_pos : 0 < c.numShards
  slots_pos : 0 < slotsLen c
  uniform : ∀ i, i < c.numShards → (shardAt c i).slots.length = slotsLen c

theorem WF.of_sameShape {c c' : CloxCache V} (w : WF c) (h : SameShape c c') : WF c' where
  shards_length := by rw [h.2.2.1, h.1, w.shards_length]
  numShards_pos := by rw [h.1]; exact w.numShards_pos
  slots_pos := by rw [slotsLen_eq_of_sameShape h]; exact w.slots_pos
  uniform := fun i hi => by
    rw [h.2.2.2 i, slotsLen_eq_of_sameShape h]
    exact w.uniform i (by rwa [h.1] at hi)

theorem WF.shardId_lt {c : CloxCache V} (w : WF c) (hash : Nat) :
    shardIdOf c hash < c.shards.length := by
  rw [w.shards_length]
  exact Nat.mod_lt _ w.numShards_pos

theorem WF.slotId_lt {c : CloxCache V} (w : WF c) (hash : Nat) :
    slotIdOf c hash < slotsLen c :=
  Nat.mod_lt _ w.slots_pos

theorem shardAt_set {c : CloxCache V} {sid : Nat} {sh' : Shard V}
    {shards' : List (Shard V)} (hs : shards' = c.shards.set sid sh') (i : Nat) :
    shards'.getD i (Shard.dflt V) =
      if sid = i ∧ i < c.shards.length then sh' else shardAt c i := by
  subst hs; exact getD_set _ _ _ _ _

theorem length_listModify (f : α → α) (l : List α) (i : Nat) :
    (listModify f l i).length = l.length := by
  induction l generalizing i with
  | nil => rfl
  | cons a as ih => cases i with
    | zero => rfl
    | succ j => simp [listModify, ih]

/-- The adaptive controller never touches the chains, the entry/ghost
counts, the capacities, the hand or the timestamp. -/
theorem adaptFrame (sh : Shard V) :
    (adaptThreshold sh).slots = sh.slots ∧
    (adaptThreshold sh).entryCount = sh.entryCount ∧
    (adaptThreshold sh).ghostCount = sh.ghostCount ∧
    (adaptThreshold sh).capacity = sh.capacity ∧
    (adaptThreshold sh).ghostCapacity = sh.ghostCapacity ∧
    (adaptThreshold sh).hand = sh.hand ∧
    (adaptThreshold sh).timestamp = sh.timestamp := by
  have hb : ∀ t : Shard V, (adaptBands t).slots = t.slots ∧
      (adaptBands t).entryCount = t.entryCount ∧ (adaptBands t).ghostCount = t.ghostCount ∧
      (adaptBands t).capacity = t.capacity ∧ (adaptBands t).ghostCapacity = t.ghostCapacity ∧
      (adaptBands t).hand = t.hand ∧ (adaptBands t).timestamp = t.timestamp := by
    intro t
    unfold adaptBands
    dsimp only
    split_ifs <;> exact ⟨rfl, rfl, rfl, rfl, rfl, rfl, rfl⟩
  have hk : ∀ (t : Shard V) (g e : Nat), (adaptK t g e).slots = t.slots ∧
      (adaptK t g e).entryCount = t.entryCount ∧ (adaptK t g e).ghostCount = t.ghostCount ∧
      (adaptK t g e).capacity = t.capacity ∧ (adaptK t g e).ghostCapacity = t.ghostCapacity ∧
      (adaptK t g e).hand = t.hand ∧ (adaptK t g e).timestamp = t.timestamp := by
    intro t g e
    unfold adaptK
    dsimp only
    split_ifs <;> exact ⟨rfl, rfl, rfl, rfl, rfl, rfl, rfl⟩
  have hd : ∀ (g e : Nat) (t : Shard V), (adaptDecay g e t).slots = t.slots ∧
      (adaptDecay g e t).entryCount = t.entryCount ∧
      (adaptDecay g e t).ghostCount = t.ghostCount ∧
      (adaptDecay g e t).capacity = t.capacity ∧
      (adaptDecay g e t).ghostCapacity = t.ghostCapacity ∧
      (adaptDecay g e t).hand = t.hand ∧ (adaptDecay g e t).timestamp = t.timestamp := by
    intro g e t
    unfold adaptDecay
    dsimp only
    split_ifs <;> exact ⟨rfl, rfl, rfl, rfl, rfl, rfl, rfl⟩
  unfold adaptThreshold
  dsimp only
  split
  · exact ⟨rfl, rfl, rfl, rfl, rfl, rfl, rfl⟩
  · obtain ⟨b1, b2, b3, b4, b5, b6, b7⟩ := hb sh
    obtain ⟨k1, k2, k3, k4, k5, k6, k7⟩ :=
      hk (adaptBands sh) sh.reachedProtected (sh.evictedUnprotected + sh.evictedProtected)
    obtain ⟨d1, d2, d3, d4, d5, d6, d7⟩ :=
      hd sh.reachedProtected (sh.evictedUnprotected + sh.evictedProtected)
        (adaptK (adaptBands sh) sh.reachedProtected (sh.evictedUnprotected + sh.evictedProtected))
    refine ⟨?_, ?_, ?_, ?_, ?_, ?_, ?_⟩
    · rw [d1, k1, b1]
    · rw [d2, k2, b2]
    · rw [d3, k3, b3]
    · rw [d4, k4, b4]
    · rw [d5, k5, b5]
    · rw [d6, k6, b6]
    · rw [d7, k7, b7]

theorem adaptThreshold_slots (sh : Shard V) : (adaptThreshold sh).slots = sh.slots :=
  (adaptFrame sh).1

theorem sameShape_set (c : CloxCache V) (sid : Nat) (sh' : Shard V) (ev hi mi : Nat)
    (hlen : sh'.slots.length = (shardAt c sid).slots.length) :
    SameShape c { c with shards := c.shards.set sid sh', evictions := ev,
                         hits := hi, misses := mi } := by
  refine ⟨rfl, rfl, by simp, fun i => ?_⟩
  show ((c.shards.set sid sh').getD i (Shard.dflt V)).slots.length = _
  rw [shardAt_set rfl i]
  split
  · next h => rw [← h.1, hlen]
  · rfl

theorem ghostRoomStep_slots_length (st : ScanSt V) (sh1 : Shard V) (vs vi : Nat)
    (isU : Bool) : (ghostRoomStep st sh1 vs vi isU).1.slots.length = sh1.slots.length := by
  unfold ghostRoomStep
  dsimp only
  split
  · split <;> simp
  · rfl

theorem demoteOrUnlink_slots_length (cs : Bool) (sh2 : Shard V) (vs vi2 : Nat)
    (canGhost : Bool) : (demoteOrUnlink cs sh2 vs vi2 canGhost).1.slots.length =
      sh2.slots.length := by
  unfold demoteOrUnlink
  split <;> simp

theorem adaptCheck_slots (sh3 : Shard V) : (adaptCheck sh3).slots = sh3.slots := by
  unfold adaptCheck
  dsimp only
  split
  · rw [adaptThreshold_slots]
  · rfl

theorem evictFromShard_sameShape (c : CloxCache V) (sid S : Nat) :
    SameShape c (evictFromShard c sid S).2 := by
  have base : ∀ (sh' : Shard V) (ev : Nat),
      sh'.slots.length = (shardAt c sid).slots.length →
      SameShape c { c with shards := c.shards.set sid sh', evictions := ev } :=
    fun sh' ev h => sameShape_set c sid sh' ev c.hits c.misses h
  unfold evictFromShard
  dsimp only
  split
  · exact base _ _ rfl
  · next vs vi isU heq =>
    apply base
    rw [adaptCheck_slots, demoteOrUnlink_slots_length, ghostRoomStep_slots_length]
    split <;> rfl

theorem evictLoop_sameShape (sid : Nat) (fuel : Nat) (c : CloxCache V) :
    SameShape c (evictLoop sid fuel c).2 := by
  induction fuel generalizing c with
  | zero => exact sameShape_refl c
  | succ f ih =>
    unfold evictLoop
    dsimp only
    split
    · split
      · exact evictFromShard_sameShape c sid _
      · exact sameShape_trans (evictFromShard_sameShape c sid _) (ih _)
    · exact sameShape_refl c

theorem get_sameShape (hashKey : KeyBytes → Nat) (key : KeyBytes) (c : CloxCache V) :
    SameShape c (Get hashKey key c).2 := by
  unfold Get
  dsimp only
  split
  · refine sameShape_set c _ _ c.evictions _ c.misses ?_
    simp
  · exact sameShape_set c _ _ c.evictions c.hits _ rfl

theorem putInsert_sameShape (c1 : CloxCache V) (shardID slotID : Nat)
    (newNode : RecordNode V) : SameShape c1 (putInsert c1 shardID slotID newNode).2 := by
  unfold putInsert
  dsimp only
  split
  · exact sameShape_trans (evictLoop_sameShape _ _ _)
      (sameShape_set _ _ _ _ _ _ (by simp))
  · exact evictLoop_sameShape _ _ _

set_option maxHeartbeats 1000000 in
theorem put_sameShape (hashKey : KeyBytes → Nat) (key : KeyBytes) (v : V)
    (c : CloxCache V) : SameShape c (Put hashKey key v c).2 := by
  unfold Put
  dsimp only
  split
  · exact sameShape_set c _ _ c.evictions c.hits c.misses (by simp)
  · split
    · exact sameShape_set c _ _ c.evictions c.hits c.misses
        (by split <;> simp)
    · exact sameShape_trans
        (sameShape_set c (shardIdOf c (hashKey key))
          { shardAt c (shardIdOf c (hashKey key)) with
              timestamp := (shardAt c (shardIdOf c (hashKey key))).timestamp + 1 }
          c.evictions c.hits c.misses rfl)
        (putInsert_sameShape _ _ _ _)

/-! ## Read-after-write lemmas (claim C1) -/

/-- A chain node that `Get` and the update pass of `Put` both accept for
key `key` with hash `hash`: matching cached hash, equal key bytes, live. -/
def liveMatch (hash : Nat) (key : KeyBytes) (n : RecordNode V) : Prop :=
  n.keyHash = hash ∧ n.key = key ∧ 0 < n.freq

/-- A chain contains a live node for the key. -/
def hasLiveMatch (hash : Nat) (key : KeyBytes) (chain : List (RecordNode V)) : Prop :=
  ∃ n ∈ chain, liveMatch hash key n

theorem getWalk_found_head {hash : Nat} {key : KeyBytes} {n : RecordNode V}
    (k e cap : Int) (ts : Nat) (rest : List (RecordNode V)) (h : liveMatch hash key n) :
    (getWalk hash key k e cap ts (n :: rest)).found = some n.value := by
  obtain ⟨h1, h2, h3⟩ := h
  rw [getWalk]
  rw [if_pos (by simp [h1, h2, keysEqual_refl])]
  rw [if_neg (by omega)]
  split <;> rfl

theorem getWalk_found_of_putFreeWalk {hash : Nat} {key : KeyBytes} {v : V} {ts1 : Nat}
    (k e cap : Int) (ts : Nat) :
    ∀ {chain chain' : List (RecordNode V)},
      putFreeWalk hash key v ts1 chain = some chain' →
      (getWalk hash key k e cap ts chain').found = some v := by
  intro chain
  induction chain with
  | nil => intro chain' h; simp [putFreeWalk] at h
  | cons n rest ih =>
    intro chain' h
    rw [putFreeWalk] at h
    by_cases hm : (n.keyHash == hash && keysEqual n.key key) = true
    · rw [if_pos hm] at h
      by_cases hg : n.freq ≤ 0
      · rw [if_pos hg] at h
        cases hrest : putFreeWalk hash key v ts1 rest with
        | none => rw [hrest] at h; simp at h
        | some restCh =>
          rw [hrest] at h
          simp only [Option.map_some', Option.some.injEq] at h
          subst h
          rw [getWalk, if_pos hm, if_pos hg]
          exact ih hrest
      · rw [if_neg hg] at h
        simp only [Option.some.injEq] at h
        subst h
        rw [getWalk]
        rw [if_pos (by simpa using hm)]
        rw [if_neg (by dsimp only; split <;> omega)]
        dsimp only
        split_ifs <;> rfl
    · rw [if_neg hm] at h
      cases hrest : putFreeWalk hash key v ts1 rest with
      | none => rw [hrest] at h; simp at h
      | some restCh =>
        rw [hrest] at h
        simp only [Option.map_some', Option.some.injEq] at h
        subst h
        rw [getWalk, if_neg hm]
        exact ih hrest

theorem getWalk_found_of_putLockedWalk {hash : Nat} {key : KeyBytes} {v : V} {ts1 : Nat}
    (k e cap : Int) (ts : Nat) :
    ∀ {chain : List (RecordNode V)} {chain' : List (RecordNode V)} {b : Bool},
      putLockedWalk hash key v ts1 chain = some (chain', b) →
      (getWalk hash key k e cap ts chain').found = some v := by
  intro chain
  induction chain with
  | nil => intro chain' b h; simp [putLockedWalk] at h
  | cons n rest ih =>
    intro chain' b h
    rw [putLockedWalk] at h
    by_cases hm : (n.keyHash == hash && keysEqual n.key key) = true
    · rw [if_pos hm] at h
      by_cases hg : n.freq ≤ 0
      · rw [if_pos hg] at h
        simp only [Option.some.injEq, Prod.mk.injEq] at h
        obtain ⟨h1, -⟩ := h
        subst h1
        rw [getWalk]
        rw [if_pos (by simpa using hm)]
        rw [if_neg (by simp only [maxFrequency, initialFreq]; split <;> split <;> omega)]
        dsimp only
        split_ifs <;> rfl
      · rw [if_neg hg] at h
        simp only [Option.some.injEq, Prod.mk.injEq] at h
        obtain ⟨h1, -⟩ := h
        subst h1
        rw [getWalk]
        rw [if_pos (by simpa using hm)]
        rw [if_neg (by dsimp only; omega)]
        dsimp only
        split_ifs <;> rfl
    · rw [if_neg hm] at h
      cases hrest : putLockedWalk hash key v ts1 rest with
      | none => rw [hrest] at h; simp at h
      | some p =>
        rw [hrest] at h
        simp only [Option.map_some', Option.some.injEq, Prod.mk.injEq] at h
        obtain ⟨h1, -⟩ := h
        subst h1
        rw [getWalk, if_neg hm]
        exact ih hrest

theorem putFreeWalk_isSome_of_hasLive {hash : Nat} {key : KeyBytes} {v : V} {ts1 : Nat} :
    ∀ {chain : List (RecordNode V)}, hasLiveMatch hash key chain →
      (putFreeWalk hash key v ts1 chain).isSome = true := by
  intro chain
  induction chain with
  | nil => rintro ⟨n, hn, -⟩; simp at hn
  | cons n rest ih =>
    rintro ⟨m, hm, hmm⟩
    rw [putFreeWalk]
    by_cases hg : (n.keyHash == hash && keysEqual n.key key) = true
    · rw [if_pos hg]
      by_cases hgh : n.freq ≤ 0
      · rw [if_pos hgh]
        have hrest : hasLiveMatch hash key rest := by
          rcases List.mem_cons.mp hm with rfl | hmem

          · exact absurd hmm.2.2 (by omega)
          · exact ⟨m, hmem, hmm⟩
        rcases Option.isSome_iff_exists.mp (ih hrest) with ⟨ch, hch⟩
        rw [hch]
        rfl
      · rw [if_neg hgh]; rfl
    · rw [if_neg hg]
      have hrest : hasLiveMatch hash key rest := by
        rcases List.mem_cons.mp hm with rfl | hmem
        · exact absurd (by simp [hmm.1, hmm.2.1, keysEqual_refl]) hg
        · exact ⟨m, hmem, hmm⟩
      rcases Option.isSome_iff_exists.mp (ih hrest) with ⟨ch, hch⟩
      rw [hch]
      rfl

theorem hasLive_of_putFreeWalk_some {hash : Nat} {key : KeyBytes} {v : V} {ts1 : Nat} :
    ∀ {chain chain' : List (RecordNode V)},
      putFreeWalk hash key v ts1 chain = some chain' → hasLiveMatch hash key chain' := by
  intro chain
  induction chain with
  | nil => intro chain' h; simp [putFreeWalk] at h
  | cons n rest ih =>
    intro chain' h
    rw [putFreeWalk] at h
    by_cases hm : (n.keyHash == hash && keysEqual n.key key) = true
    · rw [if_pos hm] at h
      simp only [Bool.and_eq_true, beq_iff_eq] at hm
      by_cases hg : n.freq ≤ 0
      · rw [if_pos hg] at h
        cases hrest : putFreeWalk hash key v ts1 rest with
        | none => rw [hrest] at h; simp at h
        | some restCh =>
          rw [hrest] at h
          simp only [Option.map_some', Option.some.injEq] at h
          subst h
          obtain ⟨m, hmem, hmm⟩ := ih hrest
          exact ⟨m, List.mem_cons_of_mem n hmem, hmm⟩
      · rw [if_neg hg] at h
        simp only [Option.some.injEq] at h
        subst h
        refine ⟨_, List.mem_cons_self _ _, hm.1, keysEqual_eq.mp hm.2, ?_⟩
        dsimp only
        split <;> omega
    · rw [if_neg hm] at h
      cases hrest : putFreeWalk hash key v ts1 rest with
      | none => rw [hrest] at h; simp at h
      | some restCh =>
        rw [hrest] at h
        simp only [Option.map_some', Option.some.injEq] at h
        subst h
        obtain ⟨m, hmem, hmm⟩ := ih hrest
        exact ⟨m, List.mem_cons_of_mem n hmem, hmm⟩

theorem hasLive_of_putLockedWalk_some {hash : Nat} {key : KeyBytes} {v : V} {ts1 : Nat} :
    ∀ {chain chain' : List (RecordNode V)} {b : Bool},
      putLockedWalk hash key v ts1 chain = some (chain', b) →
      hasLiveMatch hash key chain' := by
  intro chain
  induction chain with
  | nil => intro chain' b h; simp [putLockedWalk] at h
  | cons n rest ih =>
    intro chain' b h
    rw [putLockedWalk] at h
    by_cases hm : (n.keyHash == hash && keysEqual n.key key) = true
    · rw [if_pos hm] at h
      simp only [Bool.and_eq_true, beq_iff_eq] at hm
      by_cases hg : n.freq ≤ 0
      · rw [if_pos hg] at h
        simp only [Option.some.injEq, Prod.mk.injEq] at h
        obtain ⟨h1, -⟩ := h
        subst h1
        refine ⟨_, List.mem_cons_self _ _, hm.1, keysEqual_eq.mp hm.2, ?_⟩
        simp only [maxFrequency, initialFreq]
        split <;> split <;> omega
      · rw [if_neg hg] at h
        simp only [Option.some.injEq, Prod.mk.injEq] at h
        obtain ⟨h1, -⟩ := h
        subst h1
        exact ⟨_, List.mem_cons_self _ _, hm.1, keysEqual_eq.mp hm.2, by dsimp only; omega⟩
    · rw [if_neg hm] at h
      cases hrest : putLockedWalk hash key v ts1 rest with
      | none => rw [hrest] at h; simp at h
      | some p =>
        rw [hrest] at h
        simp only [Option.map_some', Option.some.injEq, Prod.mk.injEq] at h
        obtain ⟨h1, -⟩ := h
        subst h1
        obtain ⟨m, hmem, hmm⟩ := ih hrest
        exact ⟨m, List.mem_cons_of_mem n hmem, hmm⟩

/-- `Get` returns exactly the result of the chain walk at the key's slot. -/
theorem Get_fst (hashKey : KeyBytes → Nat) (key : KeyBytes) (c' : CloxCache V) :
    (Get hashKey key c').1 =
      (getWalk (hashKey key) key (shardAt c' (shardIdOf c' (hashKey key))).k
        (shardAt c' (shardIdOf c' (hashKey key))).entryCount
        (shardAt c' (shardIdOf c' (hashKey key))).capacity
        (shardAt c' (shardIdOf c' (hashKey key))).timestamp
        (Shard.chain (shardAt c' (shardIdOf c' (hashKey key))) (slotIdOf c' (hashKey key)))).found := by
  unfold Get
  dsimp only
  split
  · next v heq => rw [heq]
  · next heq => rw [heq]

theorem Put_fst_true_of_hasLive (hashKey : KeyBytes → Nat) (key : KeyBytes) (v : V)
    (c' : CloxCache V)
    (hlive : hasLiveMatch (hashKey key) key
      (Shard.chain (shardAt c' (shardIdOf c' (hashKey key))) (slotIdOf c' (hashKey key)))) :
    (Put hashKey key v c').1 = true := by
  unfold Put
  dsimp only
  rcases Option.isSome_iff_exists.mp (putFreeWalk_isSome_of_hasLive hlive) with ⟨ch, hch⟩
  rw [hch]

/-- Reading back the chain just written through a shard update. -/
theorem chain_after_set (c : CloxCache V) (sid slot : Nat)
    (newChain : List (RecordNode V)) (sh' : Shard V) (hsid : sid < c.shards.length)
    (hslot : slot < (shardAt c sid).slots.length)
    (hsl : sh'.slots = (shardAt c sid).slots.set slot newChain)
    (c' : CloxCache V) (hc' : c'.shards = c.shards.set sid sh') :
    Shard.chain (shardAt c' sid) slot = newChain := by
  show (c'.shards.getD sid _).slots.getD slot [] = _
  rw [hc', getD_set, if_pos ⟨rfl, hsid⟩, hsl, getD_set, if_pos ⟨rfl, hslot⟩]

/-- The insertion tail, when it succeeds, links the new node at the head
of its slot's chain. -/
theorem putInsert_head_chain (c1 : CloxCache V) (sid slot : Nat) (node : RecordNode V)
    (hsid : sid < c1.shards.length)
    (hslot : slot < (shardAt c1 sid).slots.length)
    (hp : (putInsert c1 sid slot node).1 = true) :
    ∃ rest, Shard.chain (shardAt (putInsert c1 sid slot node).2 sid) slot = node :: rest := by
  have hshape := evictLoop_sameShape (V := V) sid
      (((shardAt c1 sid).entryCount - (shardAt c1 sid).capacity).toNat + 2) c1
  unfold putInsert at hp ⊢
  dsimp only at hp ⊢
  cases hr : (evictLoop sid (((shardAt c1 sid).entryCount -
      (shardAt c1 sid).capacity).toNat + 2) c1).1 with
  | false => rw [hr] at hp; simp at hp
  | true =>
    simp only [hr, if_true] at hp ⊢
    refine ⟨Shard.chain (shardAt (evictLoop sid (((shardAt c1 sid).entryCount -
        (shardAt c1 sid).capacity).toNat + 2) c1).2 sid) slot, ?_⟩
    refine chain_after_set _ sid slot _ _ ?_ ?_ rfl _ rfl
    · rw [hshape.2.2.1]; exact hsid
    · rw [hshape.2.2.2 sid]; exact hslot

/-- After a successful `Put`, the chain at the key's slot holds a live
node for the key, and any subsequent chain walk finds the stored value. -/
theorem put_true_post (hashKey : KeyBytes → Nat) (key : KeyBytes) (v : V) (c : CloxCache V)
    (w : WF c) (hp : (Put hashKey key v c).1 = true) :
    hasLiveMatch (hashKey key) key
      (Shard.chain (shardAt (Put hashKey key v c).2 (shardIdOf c (hashKey key)))
        (slotIdOf c (hashKey key))) ∧
    ∀ (k e cap : Int) (ts : Nat),
      (getWalk (hashKey key) key k e cap ts
        (Shard.chain (shardAt (Put hashKey key v c).2 (shardIdOf c (hashKey key)))
          (slotIdOf c (hashKey key)))).found = some v := by
  have hsidlt : shardIdOf c (hashKey key) < c.shards.length := w.shardId_lt _
  have hslotlt : slotIdOf c (hashKey key) <
      (shardAt c (shardIdOf c (hashKey key))).slots.length := by
    rw [w.uniform _ (by rw [← w.shards_length]; exact hsidlt)]
    exact w.slotId_lt _
  cases hfw : putFreeWalk (hashKey key) key v
      ((shardAt c (shardIdOf c (hashKey key))).timestamp + 1)
      (Shard.chain (shardAt c (shardIdOf c (hashKey key))) (slotIdOf c (hashKey key))) with
  | some ch' =>
    have hres : Put hashKey key v c = (true,
        { c with shards := c.shards.set (shardIdOf c (hashKey key))
                             { shardAt c (shardIdOf c (hashKey key)) with
                                 slots := (shardAt c (shardIdOf c (hashKey key))).slots.set
                                   (slotIdOf c (hashKey key)) ch'
                                 timestamp := (shardAt c (shardIdOf c (hashKey key))).timestamp + 1 } }) := by
      unfold Put
      dsimp only
      rw [hfw]
    rw [hres]
    rw [chain_after_set c _ _ ch' _ hsidlt hslotlt rfl _ rfl]
    exact ⟨hasLive_of_putFreeWalk_some hfw,
      fun k e cap ts => getWalk_found_of_putFreeWalk k e cap ts hfw⟩
  | none =>
    cases hlw : putLockedWalk (hashKey key) key v
        ((shardAt c (shardIdOf c (hashKey key))).timestamp + 1 + 1)
        (Shard.chain (shardAt c (shardIdOf c (hashKey key))) (slotIdOf c (hashKey key))) with
    | some p =>
      obtain ⟨ch', promoted⟩ := p
      have hres : Put hashKey key v c = (true,
          { c with shards := c.shards.set (shardIdOf c (hashKey key))
                               (if promoted then
                               { shardAt c (shardIdOf c (hashKey key)) with
                                   slots := (shardAt c (shardIdOf c (hashKey key))).slots.set
                                     (slotIdOf c (hashKey key)) ch'
                                   timestamp := (shardAt c (shardIdOf c (hashKey key))).timestamp + 1 + 1
                                   ghostCount := (shardAt c (shardIdOf c (hashKey key))).ghostCount - 1
                                   entryCount := (shardAt c (shardIdOf c (hashKey key))).entryCount + 1 }
                              else
                               { shardAt c (shardIdOf c (hashKey key)) with
                                   slots := (shardAt c (shardIdOf c (hashKey key))).slots.set
                                     (slotIdOf c (hashKey key)) ch'
                                   timestamp := (shardAt c (shardIdOf c (hashKey key))).timestamp + 1 + 1 }) }) := by
        have hlw2 : putLockedWalk (hashKey key) key v
            ((shardAt c (shardIdOf c (hashKey key))).timestamp + 1 + 1)
            ((shardAt c (shardIdOf c (hashKey key))).slots.getD (slotIdOf c (hashKey key)) []) =
            some (ch', promoted) := hlw
        unfold Put
        dsimp only
        rw [hfw]
        dsimp only [Shard.chain]
        rw [hlw2]
      rw [hres]
      rw [chain_after_set c _ _ ch' _ hsidlt hslotlt (by split <;> rfl) _ rfl]
      exact ⟨hasLive_of_putLockedWalk_some hlw,
        fun k e cap ts => getWalk_found_of_putLockedWalk k e cap ts hlw⟩
    | none =>
      have hres : Put hashKey key v c = putInsert
          { c with shards := c.shards.set (shardIdOf c (hashKey key))
                               { shardAt c (shardIdOf c (hashKey key)) with
                                   timestamp := (shardAt c (shardIdOf c (hashKey key))).timestamp + 1 } }
          (shardIdOf c (hashKey key)) (slotIdOf c (hashKey key))
          ⟨v, hashKey key, initialFreq,
            (shardAt c (shardIdOf c (hashKey key))).timestamp + 1, copyKey key⟩ := by
        have hlw2 : putLockedWalk (hashKey key) key v
            ((shardAt c (shardIdOf c (hashKey key))).timestamp + 1 + 1)
            ((shardAt c (shardIdOf c (hashKey key))).slots.getD (slotIdOf c (hashKey key)) []) =
            none := hlw
        unfold Put
        dsimp only
        rw [hfw]
        dsimp only [Shard.chain]
        rw [hlw2]
      rw [hres] at hp ⊢
      have hsh1 : shardAt ({ c with shards := c.shards.set (shardIdOf c (hashKey key))
                                       { shardAt c (shardIdOf c (hashKey key)) with
                                           timestamp :=
                                             (shardAt c (shardIdOf c (hashKey key))).timestamp + 1 } })
          (shardIdOf c (hashKey key)) =
          { shardAt c (shardIdOf c (hashKey key)) with
              timestamp := (shardAt c (shardIdOf c (hashKey key))).timestamp + 1 } := by
        show (c.shards.set _ _).getD _ _ = _
        rw [getD_set, if_pos ⟨rfl, hsidlt⟩]
      obtain ⟨rest, hchain⟩ := putInsert_head_chain _ _ _ _
        (by simpa using hsidlt)
        (by rw [hsh1]; exact hslotlt)
        hp
      rw [hchain]
      constructor
      · exact ⟨_, List.mem_cons_self _ _, rfl, rfl, by simp [initialFreq]⟩
      · intro k e cap ts
        exact getWalk_found_head k e cap ts rest ⟨rfl, rfl, by simp [initialFreq]⟩

theorem get_after_put (hashKey : KeyBytes → Nat) (key : KeyBytes) (v : V)
    (c : CloxCache V) (w : WF c) (hp : (Put hashKey key v c).1 = true) :
    (Get hashKey key (Put hashKey key v c).2).1 = some v := by
  have hpost := put_true_post hashKey key v c w hp
  rw [Get_fst]
  have hss := put_sameShape hashKey key v c
  rw [shardIdOf_eq_of_sameShape hss, slotIdOf_eq_of_sameShape hss]
  exact hpost.2 _ _ _ _

theorem put_after_put (hashKey : KeyBytes → Nat) (key : KeyBytes) (v1 v2 : V)
    (c : CloxCache V) (w : WF c) (h1 : (Put hashKey key v1 c).1 = true) :
    (Put hashKey key v2 (Put hashKey key v1 c).2).1 = true := by
  have hpost := put_true_post hashKey key v1 c w h1
  apply Put_fst_true_of_hasLive
  have hss := put_sameShape hashKey key v1 c
  rw [shardIdOf_eq_of_sameShape hss, slotIdOf_eq_of_sameShape hss]
  exact hpost.1

/-- C1.  Read-after-write on a single key: from any well-formed cache
state, if `put(k, v1)` succeeds then `put(k, v2)` also succeeds and a
subsequent `get(k)` returns `(v2, true)` — the last stored value, never a
stale one. -/
theorem C1_read_after_write (hashKey : KeyBytes → Nat) (c : CloxCache V) (key : KeyBytes)
    (v1 v2 : V) (w : WF c) (h1 : (Put hashKey key v1 c).1 = true) :
    (Put hashKey key v2 (Put hashKey key v1 c).2).1 = true ∧
    (Get hashKey key (Put hashKey key v2 (Put hashKey key v1 c).2).2).1 = some v2 := by
  have w1 : WF (Put hashKey key v1 c).2 := w.of_sameShape (put_sameShape hashKey key v1 c)
  have h2 := put_after_put hashKey key v1 v2 c w h1
  exact ⟨h2, get_after_put hashKey key v2 _ w1 h2⟩

/-- A concrete 64-bit hash oracle for the witnesses: the first byte. -/
def hashW : KeyBytes → Nat := fun l => l.headD 0

/-- A concrete well-formed cache built by the constructor:
one shard, four slots, capacity two, full sweep. -/
def cW : CloxCache Nat :=
  match NewCloxCache Nat ⟨1, 4, 2, false, 100⟩ with
  | .ok c => c
  | .error _ => ⟨[], 0, 0, false, 0, 0, 0, 0⟩

/-- Witness for C1 at a concrete input. -/
theorem C1_read_after_write_witness :
    (Put hashW [1] 7 (Put hashW [1] 5 cW).2).1 = true ∧
    (Get hashW [1] (Put hashW [1] 7 (Put hashW [1] 5 cW).2).2).1 = some 7 :=
  C1_read_after_write hashW cW [1] 5 7
    ⟨by decide, by decide, by decide, by decide⟩ (by decide)

/-! ## Construction validation (claim C7) -/

theorem land_self_eq (n : Nat) : n &&& n = n := by
  apply Nat.eq_of_testBit_eq
  intro i
  simp [Nat.testBit_land]

/-- The power-of-two test used by the constructor: for positive `n`,
`n & (n-1) == 0` holds exactly when `n` is a power of two. -/
theorem land_pred_eq_zero_iff : ∀ n : Nat, 0 < n →
    (n &&& (n - 1) = 0 ↔ ∃ k, n = 2 ^ k) := by
  intro n
  induction n using Nat.strong_induction_on with
  | _ n ih =>
    intro hn
    rcases Nat.lt_or_ge n 2 with h2 | h2
    · have h1 : n = 1 := by omega
      subst h1
      constructor
      · intro _
        exact ⟨0, rfl⟩
      · intro _
        decide
    · rcases Nat.even_or_odd n with ⟨m, hm⟩ | ⟨m, hm⟩
      · have hm' : n = 2 * m := by omega
        have hmpos : 0 < m := by omega
        have hb : n &&& (n - 1) = Nat.bit false (m &&& (m - 1)) := by
          rw [hm', show 2 * m - 1 = 2 * (m - 1) + 1 by omega]
          rw [show 2 * m = Nat.bit false m by simp [Nat.bit]]
          rw [show 2 * (m - 1) + 1 = Nat.bit true (m - 1) by simp [Nat.bit]]
          rw [Nat.land_bit]
          rfl
        have hih := ih m (by omega) hmpos
        constructor
        · intro h0
          rw [hb] at h0
          simp [Nat.bit] at h0
          have : m &&& (m - 1) = 0 := by omega
          obtain ⟨k, hk⟩ := hih.mp this
          exact ⟨k + 1, by rw [hm', hk]; ring⟩
        · rintro ⟨k, hk⟩
          rw [hb]
          simp only [Nat.bit]
          have hk1 : 0 < k := by
            by_contra hk0
            have : k = 0 := by omega
            subst this
            omega
          have hmk : m = 2 ^ (k - 1) := by
            have : 2 * m = 2 * 2 ^ (k - 1) := by
              rw [← hm', hk, ← pow_succ']
              congr 1
              omega
            omega
          have : m &&& (m - 1) = 0 := hih.mpr ⟨k - 1, hmk⟩
          simp [Nat.bit, this]
      · have hm' : n = 2 * m + 1 := hm
        have hmpos : 0 < m := by omega
        have hb : n &&& (n - 1) = Nat.bit false m := by
          rw [hm', show 2 * m + 1 - 1 = 2 * m by omega]
          rw [show 2 * m + 1 = Nat.bit true m by simp [Nat.bit]]
          rw [show 2 * m = Nat.bit false m by simp [Nat.bit]]
          rw [Nat.land_bit]
          simp [land_self_eq]
        constructor
        · intro h0
          rw [hb] at h0
          simp [Nat.bit] at h0
          omega
        · rintro ⟨k, hk⟩
          exfalso
          rcases Nat.eq_zero_or_pos k with rfl | hkpos
          · omega
          · have : 2 ^ k = 2 * 2 ^ (k - 1) := by
              rw [← pow_succ']
              congr 1
              omega
            omega

theorem int_pow2_iff (x : Int) :
    (∃ i : Nat, x = 2 ^ i) ↔ 0 < x ∧ ∃ i : Nat, x.toNat = 2 ^ i := by
  constructor
  · rintro ⟨i, rfl⟩
    refine ⟨by positivity, i, ?_⟩
    rw [show ((2:Int)^i) = ((2^i : Nat) : Int) by push_cast; ring]
    exact Int.toNat_natCast _
  · rintro ⟨hpos, i, hi⟩
    refine ⟨i, ?_⟩
    rw [show ((2:Int)^i) = ((2^i : Nat) : Int) by push_cast; ring, ← hi]
    omega

/-- C7.  Construction succeeds exactly when `numShards` and
`slotsPerShard` are both positive powers of two; in every other case it
fails loudly with the validation panic (modelled as `Except.error`).  The
two sides of the dichotomy are stated separately. -/
theorem C7_construction_validation (V : Type) (cfg : Config) :
    ((∃ c, NewCloxCache V cfg = .ok c) ↔
      ((∃ i : Nat, cfg.NumShards = 2 ^ i) ∧ (∃ j : Nat, cfg.SlotsPerShard = 2 ^ j))) ∧
    ((∃ msg, NewCloxCache V cfg = .error msg) ↔
      ¬((∃ i : Nat, cfg.NumShards = 2 ^ i) ∧ (∃ j : Nat, cfg.SlotsPerShard = 2 ^ j))) := by
  have hvalid : ((∃ i : Nat, cfg.NumShards = 2 ^ i) ∧ (∃ j : Nat, cfg.SlotsPerShard = 2 ^ j)) ↔
      (¬cfg.NumShards ≤ 0 ∧ ¬cfg.SlotsPerShard ≤ 0 ∧
        cfg.NumShards.toNat &&& (cfg.NumShards.toNat - 1) = 0 ∧
        cfg.SlotsPerShard.toNat &&& (cfg.SlotsPerShard.toNat - 1) = 0) := by
    rw [int_pow2_iff, int_pow2_iff]
    constructor
    · rintro ⟨⟨hp1, hq1⟩, hp2, hq2⟩
      refine ⟨by omega, by omega, ?_, ?_⟩
      · exact (land_pred_eq_zero_iff _ (by omega)).mpr hq1
      · exact (land_pred_eq_zero_iff _ (by omega)).mpr hq2
    · rintro ⟨h1, h2, h3, h4⟩
      refine ⟨⟨by omega, ?_⟩, by omega, ?_⟩
      · exact (land_pred_eq_zero_iff _ (by omega)).mp h3
      · exact (land_pred_eq_zero_iff _ (by omega)).mp h4
  rw [hvalid]
  unfold NewCloxCache
  by_cases h1 : cfg.NumShards ≤ 0
  · rw [if_pos h1]
    refine ⟨⟨?_, ?_⟩, ?_, ?_⟩
    · rintro ⟨c, hc⟩; cases hc
    · rintro ⟨h, -⟩; exact absurd h1 h
    · rintro - ⟨h, -⟩; exact absurd h1 h
    · intro _; exact ⟨_, rfl⟩
  rw [if_neg h1]
  by_cases h2 : cfg.SlotsPerShard ≤ 0
  · rw [if_pos h2]
    refine ⟨⟨?_, ?_⟩, ?_, ?_⟩
    · rintro ⟨c, hc⟩; cases hc
    · rintro ⟨-, h, -⟩; exact absurd h2 h
    · rintro - ⟨-, h, -⟩; exact absurd h2 h
    · intro _; exact ⟨_, rfl⟩
  rw [if_neg h2]
  by_cases h3 : cfg.NumShards.toNat &&& (cfg.NumShards.toNat - 1) ≠ 0
  · rw [if_pos h3]
    refine ⟨⟨?_, ?_⟩, ?_, ?_⟩
    · rintro ⟨c, hc⟩; cases hc
    · rintro ⟨-, -, h, -⟩; exact absurd h h3
    · rintro - ⟨-, -, h, -⟩; exact absurd h h3
    · intro _; exact ⟨_, rfl⟩
  rw [if_neg h3]
  by_cases h4 : cfg.SlotsPerShard.toNat &&& (cfg.SlotsPerShard.toNat - 1) ≠ 0
  · rw [if_pos h4]
    refine ⟨⟨?_, ?_⟩, ?_, ?_⟩
    · rintro ⟨c, hc⟩; cases hc
    · rintro ⟨-, -, -, h⟩; exact absurd h h4
    · rintro - ⟨-, -, -, h⟩; exact absurd h h4
    · intro _; exact ⟨_, rfl⟩
  rw [if_neg h4]
  refine ⟨⟨?_, ?_⟩, ?_, ?_⟩
  · intro _; exact ⟨h1, h2, by omega, by omega⟩
  · intro _; exact ⟨_, rfl⟩
  · rintro ⟨msg, hmsg⟩; cases hmsg
  · intro h; exact absurd ⟨h1, h2, by omega, by omega⟩ h

/-- Witness for C7: `(16, 256)` constructs, `(15, 256)` fails. -/
theorem C7_construction_validation_witness :
    (∃ c, NewCloxCache Nat ⟨16, 256, 0, false, 0⟩ = .ok c) ∧
    (∃ msg, NewCloxCache Nat ⟨15, 256, 0, false, 0⟩ = .error msg) :=
  ⟨(C7_construction_validation Nat ⟨16, 256, 0, false, 0⟩).1.mpr
      ⟨⟨4, by norm_num⟩, ⟨8, by norm_num⟩⟩,
   (C7_construction_validation Nat ⟨15, 256, 0, false, 0⟩).2.mpr (by
      rintro ⟨hpow, -⟩
      obtain ⟨-, i, hi⟩ := (int_pow2_iff _).mp hpow
      have h0 : (15:Nat) &&& (15 - 1) = 0 :=
        (land_pred_eq_zero_iff 15 (by omega)).mpr ⟨i, hi⟩
      exact absurd h0 (by decide))⟩

/-! ## Scan-window arithmetic (claim C8) -/

/-- Modelled from the spec's words: the effective sweep percent is the
configured value clamped to `[1, 100]`, with non-positive values
defaulting to 15. -/
def specSweepPercent (p : Int) : Nat := if p ≤ 0 then 15 else min p.toNat 100

/-- Modelled from the spec's words: `maxScan = max(1, S·p/100)`. -/
def specMaxScan (S p : Nat) : Nat := max 1 (S * p / 100)

/-- Modelled from the spec's words: `⌈maxScan/2⌉`. -/
def ceilHalf (m : Nat) : Nat := (m + 1) / 2

/-- Modelled from the spec's words: the `maxScan` consecutive slots
starting at `start`, wrapping modulo `S`. -/
def specScanSlots (S start m : Nat) : List Nat :=
  (List.range m).map (fun j => (start + j) % S)

theorem ceilHalf_is_ceil (m : Nat) : m ≤ 2 * ceilHalf m ∧ 2 * ceilHalf m ≤ m + 1 := by
  unfold ceilHalf
  omega

theorem specSweepPercent_bounds (p : Int) :
    1 ≤ specSweepPercent p ∧ specSweepPercent p ≤ 100 := by
  unfold specSweepPercent
  simp only [Nat.min_def]
  split_ifs <;> omega

theorem code_maxScan_eq (S p : Nat) :
    (if S * p / 100 < 1 then 1 else S * p / 100) = specMaxScan S p := by
  unfold specMaxScan
  simp only [Nat.max_def]
  split_ifs <;> omega

theorem code_advance_eq (S p : Nat) :
    ((if S * p / 100 < 1 then 1 else S * p / 100) + 1) / 2 = ceilHalf (specMaxScan S p) := by
  rw [code_maxScan_eq]
  rfl

/-- The constructor stores exactly the clamped sweep percent. -/
theorem newCache_sweepPercent (V : Type) (cfg : Config) (c0 : CloxCache V)
    (h0 : NewCloxCache V cfg = .ok c0) :
    c0.sweepPercent = specSweepPercent cfg.SweepPercent := by
  unfold NewCloxCache at h0
  by_cases h1 : cfg.NumShards ≤ 0
  · rw [if_pos h1] at h0; cases h0
  rw [if_neg h1] at h0
  by_cases h2 : cfg.SlotsPerShard ≤ 0
  · rw [if_pos h2] at h0; cases h0
  rw [if_neg h2] at h0
  by_cases h3 : cfg.NumShards.toNat &&& (cfg.NumShards.toNat - 1) ≠ 0
  · rw [if_pos h3] at h0; cases h0
  rw [if_neg h3] at h0
  by_cases h4 : cfg.SlotsPerShard.toNat &&& (cfg.SlotsPerShard.toNat - 1) ≠ 0
  · rw [if_pos h4] at h0; cases h0
  rw [if_neg h4] at h0
  cases h0
  show (if cfg.SweepPercent ≤ 0 then (15:Nat)
        else if 100 < cfg.SweepPercent then 100 else cfg.SweepPercent.toNat) = _
  unfold specSweepPercent
  simp only [Nat.min_def]
  split_ifs <;> omega

theorem ghostRoomStep_hand (st : ScanSt V) (sh1 : Shard V) (vs vi : Nat) (isU : Bool) :
    (ghostRoomStep st sh1 vs vi isU).1.hand = sh1.hand := by
  unfold ghostRoomStep
  dsimp only
  split
  · split <;> rfl
  · rfl

theorem demoteOrUnlink_hand (cs : Bool) (sh2 : Shard V) (vs vi2 : Nat) (canGhost : Bool) :
    (demoteOrUnlink cs sh2 vs vi2 canGhost).1.hand = sh2.hand := by
  unfold demoteOrUnlink
  split <;> rfl

theorem adaptCheck_hand (sh3 : Shard V) : (adaptCheck sh3).hand = sh3.hand := by
  unfold adaptCheck
  dsimp only
  split
  · exact (adaptFrame _).2.2.2.2.2.1
  · rfl

/-- The scan loop visits exactly the slots of the spec's list. -/
theorem scanSlots_eq_foldl (k : Int) (slots : List (List (RecordNode V))) (S start : Nat) :
    ∀ (m j : Nat) (st : ScanSt V),
      scanSlots k slots S start m j st =
        ((List.range m).map (fun i => (start + j + i) % S)).foldl
          (fun st q => scanChainAux k q 0 (slots.getD q []) st) st := by
  intro m
  induction m with
  | zero => intro j st; rfl
  | succ m ih =>
    intro j st
    rw [scanSlots]
    rw [ih (j + 1)]
    rw [List.range_succ_eq_map]
    simp only [List.map_cons, List.foldl_cons, List.map_map]
    have hf : ((fun i => (start + j + i) % S) ∘ Nat.succ) =
        (fun i => (start + (j + 1) + i) % S) := by
      funext i
      simp only [Function.comp_apply]
      congr 1
      omega
    rw [hf]
    rfl

/-- C8.  Scan-window arithmetic: the constructor stores the clamped sweep
percent (non-positive defaults to 15, values above 100 clamp to 100); an
eviction call computes `maxScan = max(1, S·p/100)`, advances the CLOCK
hand by exactly `⌈maxScan/2⌉`, and its scan traverses exactly the
`maxScan` consecutive slots starting at the new hand position modulo `S`. -/
theorem C8_scan_window (V : Type) (cfg : Config) (c0 : CloxCache V)
    (h0 : NewCloxCache V cfg = .ok c0) (c : CloxCache V) (sid S : Nat)
    (hsid : sid < c.shards.length) :
    c0.sweepPercent = specSweepPercent cfg.SweepPercent ∧
    (1 ≤ c0.sweepPercent ∧ c0.sweepPercent ≤ 100) ∧
    ((if S * c.sweepPercent / 100 < 1 then 1 else S * c.sweepPercent / 100) =
        specMaxScan S c.sweepPercent ∧
      ((if S * c.sweepPercent / 100 < 1 then 1 else S * c.sweepPercent / 100) + 1) / 2 =
        ceilHalf (specMaxScan S c.sweepPercent)) ∧
    (shardAt (evictFromShard c sid S).2 sid).hand =
      (shardAt c sid).hand + ceilHalf (specMaxScan S c.sweepPercent) ∧
    (∀ (st0 : ScanSt V) (start : Nat),
      scanSlots (shardAt c sid).k (shardAt c sid).slots S start
          (specMaxScan S c.sweepPercent) 0 st0 =
        (specScanSlots S start (specMaxScan S c.sweepPercent)).foldl
          (fun st q => scanChainAux (shardAt c sid).k q 0
            ((shardAt c sid).slots.getD q []) st) st0) := by
  refine ⟨?_, ?_, ⟨?_, ?_⟩, ?_, ?_⟩
  · exact newCache_sweepPercent V cfg c0 h0
  · rw [newCache_sweepPercent V cfg c0 h0]
    exact specSweepPercent_bounds _
  · exact code_maxScan_eq S c.sweepPercent
  · exact code_advance_eq S c.sweepPercent
  · have hms : evictMaxScan c S = specMaxScan S c.sweepPercent := by
      unfold evictMaxScan
      dsimp only
      exact code_maxScan_eq S c.sweepPercent
    unfold evictFromShard
    dsimp only
    split
    · show ((c.shards.set sid _).getD sid _).hand = _
      rw [getD_set, if_pos ⟨rfl, hsid⟩]
      dsimp only
      rw [hms]
      rfl
    · show ((c.shards.set sid _).getD sid _).hand = _
      rw [getD_set, if_pos ⟨rfl, hsid⟩]
      rw [adaptCheck_hand, demoteOrUnlink_hand, ghostRoomStep_hand]
      split <;> (dsimp only; rw [hms]; rfl)
  · intro st0 start
    rw [scanSlots_eq_foldl]
    unfold specScanSlots
    rfl

/-- Witness for C8 at a concrete configuration and state. -/
theorem C8_scan_window_witness :
    cW.sweepPercent = specSweepPercent 100 ∧
    (1 ≤ cW.sweepPercent ∧ cW.sweepPercent ≤ 100) ∧
    ((if 4 * cW.sweepPercent / 100 < 1 then 1 else 4 * cW.sweepPercent / 100) =
        specMaxScan 4 cW.sweepPercent ∧
      ((if 4 * cW.sweepPercent / 100 < 1 then 1 else 4 * cW.sweepPercent / 100) + 1) / 2 =
        ceilHalf (specMaxScan 4 cW.sweepPercent)) ∧
    (shardAt (evictFromShard cW 0 4).2 0).hand =
      (shardAt cW 0).hand + ceilHalf (specMaxScan 4 cW.sweepPercent) ∧
    (∀ (st0 : ScanSt Nat) (start : Nat),
      scanSlots (shardAt cW 0).k (shardAt cW 0).slots 4 start
          (specMaxScan 4 cW.sweepPercent) 0 st0 =
        (specScanSlots 4 start (specMaxScan 4 cW.sweepPercent)).foldl
          (fun st q => scanChainAux (shardAt cW 0).k q 0
            ((shardAt cW 0).slots.getD q []) st) st0) :=
  C8_scan_window Nat ⟨1, 4, 2, false, 100⟩ cW rfl cW 0 4 (by decide)

/-! ## Scan-tracker analysis (claims C2 and C3) -/

/-- Generic best-of tracker update: record the node's position when it
satisfies the predicate and beats the current best access. -/
def trkUpd (p : RecordNode V → Bool) (pos : Nat × Nat) (n : RecordNode V)
    (t : Option (Nat × Nat × Nat)) : Option (Nat × Nat × Nat) :=
  if p n && better t n.lastAccess then some (pos.1, pos.2, n.lastAccess) else t

/-- Predicate of the low-frequency tracker: live and `freq ≤ k`. -/
def pLow (k : Int) (n : RecordNode V) : Bool :=
  decide (0 < n.freq) && decide (n.freq ≤ k)

/-- Predicate of the fallback tracker: live. -/
def pLive (n : RecordNode V) : Bool := decide (0 < n.freq)

/-- Predicate of the oldest-ghost tracker. -/
def pGhost (n : RecordNode V) : Bool := decide (n.freq ≤ 0)

theorem scanNode_low (k : Int) (s i : Nat) (n : RecordNode V) (st : ScanSt V) :
    (scanNode k s i n st).low = trkUpd (pLow k) (s, i) n st.low := by
  unfold scanNode trkUpd
  by_cases hg : n.freq ≤ 0
  · have hp : ¬((pLow k n && better st.low n.lastAccess) = true) := by
      unfold pLow
      simp
      omega
    rw [if_pos hg, if_neg hp]
    split <;> rfl
  · rw [if_neg hg]
    dsimp only
    by_cases hc : n.freq ≤ k ∧ better st.low n.lastAccess = true
    · have hp : (pLow k n && better st.low n.lastAccess) = true := by
        unfold pLow
        simp [hc.1, hc.2]
        omega
      rw [if_pos hc, if_pos hp]
      dsimp only
      split <;> rfl
    · have hp : ¬((pLow k n && better st.low n.lastAccess) = true) := by
        unfold pLow
        simp only [Bool.and_eq_true, decide_eq_true_eq]
        rintro ⟨⟨-, h1⟩, h2⟩
        exact hc ⟨h1, h2⟩
      rw [if_neg hc, if_neg hp]
      split <;> rfl

theorem scanNode_fb (k : Int) (s i : Nat) (n : RecordNode V) (st : ScanSt V) :
    (scanNode k s i n st).fb = trkUpd pLive (s, i) n st.fb := by
  unfold scanNode trkUpd
  by_cases hg : n.freq ≤ 0
  · have hp : ¬((pLive n && better st.fb n.lastAccess) = true) := by
      unfold pLive
      simp
      omega
    rw [if_pos hg, if_neg hp]
    split <;> rfl
  · rw [if_neg hg]
    dsimp only
    have hfb : (if n.freq ≤ k ∧ better st.low n.lastAccess = true then
        { st with low := some (s, i, n.lastAccess) } else st).fb = st.fb := by
      split <;> rfl
    rw [hfb]
    by_cases hb : better st.fb n.lastAccess = true
    · have hp : (pLive n && better st.fb n.lastAccess) = true := by
        unfold pLive
        simp [hb]
        omega
      rw [if_pos hb, if_pos hp]
    · have hp : ¬((pLive n && better st.fb n.lastAccess) = true) := by
        unfold pLive
        simp only [Bool.and_eq_true, decide_eq_true_eq]
        rintro ⟨-, h2⟩
        exact hb h2
      rw [if_neg hb, if_neg hp]
      exact hfb

theorem scanNode_gh (k : Int) (s i : Nat) (n : RecordNode V) (st : ScanSt V) :
    (scanNode k s i n st).gh = trkUpd pGhost (s, i) n st.gh := by
  unfold scanNode trkUpd
  by_cases hg : n.freq ≤ 0
  · rw [if_pos hg]
    by_cases hb : better st.gh n.lastAccess = true
    · have hp : (pGhost n && better st.gh n.lastAccess) = true := by
        unfold pGhost
        simp [hb]
        omega
      rw [if_pos hb, if_pos hp]
    · have hp : ¬((pGhost n && better st.gh n.lastAccess) = true) := by
        unfold pGhost
        simp only [Bool.and_eq_true, decide_eq_true_eq]
        rintro ⟨-, h2⟩
        exact hb h2
      rw [if_neg hb, if_neg hp]
  · have hp : ¬((pGhost n && better st.gh n.lastAccess) = true) := by
      unfold pGhost
      simp
      omega
    rw [if_neg hg, if_neg hp]
    dsimp only
    split <;> split <;> rfl

/-- One step of the scan as a fold over position-tagged nodes. -/
def scanStep (k : Int) : ScanSt V → ((Nat × Nat) × RecordNode V) → ScanSt V :=
  fun st e => scanNode k e.1.1 e.1.2 e.2 st

/-- A single tracker as a fold. -/
def trkFold (p : RecordNode V → Bool) (seq : List ((Nat × Nat) × RecordNode V))
    (t : Option (Nat × Nat × Nat)) : Option (Nat × Nat × Nat) :=
  seq.foldl (fun t e => trkUpd p e.1 e.2 t) t

theorem foldl_scanStep_low (k : Int) (seq : List ((Nat × Nat) × RecordNode V)) :
    ∀ st : ScanSt V, (seq.foldl (scanStep k) st).low = trkFold (pLow k) seq st.low := by
  induction seq with
  | nil => intro st; rfl
  | cons e rest ih =>
    intro st
    show (rest.foldl (scanStep k) (scanStep k st e)).low = _
    rw [ih]
    unfold trkFold
    rw [List.foldl_cons]
    congr 1
    exact scanNode_low k e.1.1 e.1.2 e.2 st

theorem foldl_scanStep_fb (k : Int) (seq : List ((Nat × Nat) × RecordNode V)) :
    ∀ st : ScanSt V, (seq.foldl (scanStep k) st).fb = trkFold pLive seq st.fb := by
  induction seq with
  | nil => intro st; rfl
  | cons e rest ih =>
    intro st
    show (rest.foldl (scanStep k) (scanStep k st e)).fb = _
    rw [ih]
    unfold trkFold
    rw [List.foldl_cons]
    congr 1
    exact scanNode_fb k e.1.1 e.1.2 e.2 st

theorem foldl_scanStep_gh (k : Int) (seq : List ((Nat × Nat) × RecordNode V)) :
    ∀ st : ScanSt V, (seq.foldl (scanStep k) st).gh = trkFold pGhost seq st.gh := by
  induction seq with
  | nil => intro st; rfl
  | cons e rest ih =>
    intro st
    show (rest.foldl (scanStep k) (scanStep k st e)).gh = _
    rw [ih]
    unfold trkFold
    rw [List.foldl_cons]
    congr 1
    exact scanNode_gh k e.1.1 e.1.2 e.2 st

/-- The position-tagged sequence of nodes visited by an eviction scan. -/
def scanSeq (slots : List (List (RecordNode V))) (S start m : Nat) :
    List ((Nat × Nat) × RecordNode V) :=
  ((specScanSlots S start m).map
    (fun q => ((slots.getD q []).enum).map (fun e => ((q, e.1), e.2)))).flatten

theorem scanChainAux_eq_foldl (k : Int) (q : Nat) :
    ∀ (chain : List (RecordNode V)) (i : Nat) (st : ScanSt V),
      scanChainAux k q i chain st =
        ((chain.enumFrom i).map (fun e => ((q, e.1), e.2))).foldl (scanStep k) st := by
  intro chain
  induction chain with
  | nil => intro i st; rfl
  | cons n rest ih =>
    intro i st
    rw [scanChainAux]
    rw [ih (i + 1)]
    rfl

/-- The scan of `evictFromShard` is exactly a fold of `scanNode` over the
position-tagged scanned nodes. -/
theorem scanSlots_eq_scanSeq (k : Int) (slots : List (List (RecordNode V)))
    (S start m : Nat) (st : ScanSt V) :
    scanSlots k slots S start m 0 st = (scanSeq slots S start m).foldl (scanStep k) st := by
  rw [scanSlots_eq_foldl]
  unfold scanSeq specScanSlots
  simp only [List.foldl_flatten, List.map_map, List.foldl_map]
  congr 1
  funext st' i
  show scanChainAux k ((start + 0 + i) % S) 0 (slots.getD ((start + 0 + i) % S) []) st' = _
  rw [show start + 0 + i = start + i from by omega]
  exact scanChainAux_eq_foldl k _ _ 0 st'

theorem trkFold_mono (p : RecordNode V → Bool) :
    ∀ (seq : List ((Nat × Nat) × RecordNode V)) (s i a s' i' a' : Nat),
      trkFold p seq (some (s, i, a)) = some (s', i', a') → a' ≤ a := by
  intro seq
  induction seq with
  | nil =>
    intro s i a s' i' a' h
    simp only [trkFold, List.foldl_nil, Option.some.injEq, Prod.mk.injEq] at h
    omega
  | cons e rest ih =>
    intro s i a s' i' a' h
    unfold trkFold at h
    rw [List.foldl_cons] at h
    unfold trkUpd at h
    split_ifs at h with hc
    · have h2 := ih _ _ _ _ _ _ h
      simp only [Bool.and_eq_true, better, decide_eq_true_eq] at hc
      omega
    · exact ih _ _ _ _ _ _ h

theorem trkFold_none_iff (p : RecordNode V → Bool) :
    ∀ (seq : List ((Nat × Nat) × RecordNode V)) (t : Option (Nat × Nat × Nat)),
      trkFold p seq t = none ↔ (t = none ∧ ∀ e ∈ seq, p e.2 = false) := by
  intro seq
  induction seq with
  | nil => intro t; simp [trkFold]
  | cons e rest ih =>
    intro t
    unfold trkFold
    rw [List.foldl_cons]
    rw [show List.foldl (fun t e => trkUpd p e.1 e.2 t) (trkUpd p e.1 e.2 t) rest =
      trkFold p rest (trkUpd p e.1 e.2 t) from rfl]
    rw [ih]
    unfold trkUpd
    constructor
    · rintro ⟨h1, h2⟩
      split_ifs at h1 with hc
      subst h1
      refine ⟨rfl, fun e' he' => ?_⟩
      rcases List.mem_cons.mp he' with rfl | hmem
      · simp [better] at hc
        exact hc
      · exact h2 e' hmem
    · rintro ⟨h1, h2⟩
      subst h1
      rw [if_neg (by simp [h2 e (List.mem_cons_self e rest)])]
      exact ⟨rfl, fun e' he' => h2 e' (List.mem_cons_of_mem e he')⟩

theorem trkFold_sound (p : RecordNode V → Bool) :
    ∀ (seq : List ((Nat × Nat) × RecordNode V)) (t : Option (Nat × Nat × Nat))
      (s' i' a' : Nat), trkFold p seq t = some (s', i', a') →
      t = some (s', i', a') ∨
        ∃ e ∈ seq, p e.2 = true ∧ e.1 = (s', i') ∧ e.2.lastAccess = a' := by
  intro seq
  induction seq with
  | nil => intro t s' i' a' h; exact Or.inl h
  | cons e rest ih =>
    intro t s' i' a' h
    unfold trkFold at h
    rw [List.foldl_cons] at h
    rcases ih _ _ _ _ h with h1 | ⟨e', he', hp, hpos, hacc⟩
    · unfold trkUpd at h1
      split_ifs at h1 with hc
      · simp only [Option.some.injEq, Prod.mk.injEq] at h1
        simp only [Bool.and_eq_true] at hc
        exact Or.inr ⟨e, List.mem_cons_self e rest, hc.1,
          by rw [← h1.1, ← h1.2.1], h1.2.2⟩
      · exact Or.inl h1
    · exact Or.inr ⟨e', List.mem_cons_of_mem e he', hp, hpos, hacc⟩

theorem trkFold_min (p : RecordNode V → Bool) :
    ∀ (seq : List ((Nat × Nat) × RecordNode V)) (t : Option (Nat × Nat × Nat))
      (s' i' a' : Nat), trkFold p seq t = some (s', i', a') →
      ∀ e ∈ seq, p e.2 = true → a' ≤ e.2.lastAccess := by
  intro seq
  induction seq with
  | nil => intro t s' i' a' h e he; cases he
  | cons e rest ih =>
    intro t s' i' a' h e' he' hp
    unfold trkFold at h
    rw [List.foldl_cons] at h
    rcases List.mem_cons.mp he' with rfl | hmem
    · unfold trkUpd at h
      split_ifs at h with hc
      · exact trkFold_mono p rest _ _ _ _ _ _ h
      · simp only [hp, Bool.true_and, Bool.not_eq_true] at hc
        cases ht : t with
        | none => rw [ht] at hc; simp [better] at hc
        | some x =>
          obtain ⟨s0, i0, a0⟩ := x
          rw [ht] at h hc
          have h1 : a0 ≤ e'.2.lastAccess := by
            simpa [better] using hc
          have h2 := trkFold_mono p rest _ _ _ _ _ _ h
          omega
    · exact ih _ _ _ _ h e' hmem hp

/-! ## Eviction-call characterisation (claims C2 and C3) -/

/-- The position-tagged nodes visited by one eviction call on a shard. -/
def evictScanSeq (c : CloxCache V) (sid S : Nat) : List ((Nat × Nat) × RecordNode V) :=
  scanSeq (shardAt c sid).slots S (evictStart c sid S) (evictMaxScan c S)

theorem evictScanState_low (c : CloxCache V) (sid S : Nat) :
    (evictScanState c sid S).low =
      trkFold (pLow (shardAt c sid).k) (evictScanSeq c sid S) none := by
  unfold evictScanState evictScanSeq
  rw [scanSlots_eq_scanSeq]
  exact foldl_scanStep_low _ _ ⟨none, none, none⟩

theorem evictScanState_fb (c : CloxCache V) (sid S : Nat) :
    (evictScanState c sid S).fb =
      trkFold pLive (evictScanSeq c sid S) none := by
  unfold evictScanState evictScanSeq
  rw [scanSlots_eq_scanSeq]
  exact foldl_scanStep_fb _ _ ⟨none, none, none⟩

theorem chooseVictim_low (st : ScanSt V) (s i a : Nat) (h : st.low = some (s, i, a)) :
    chooseVictim st = some ((s, i), true) := by
  unfold chooseVictim
  rw [h]

theorem chooseVictim_fb (st : ScanSt V) (s i a : Nat) (hl : st.low = none)
    (h : st.fb = some (s, i, a)) : chooseVictim st = some ((s, i), false) := by
  unfold chooseVictim
  rw [hl, h]

theorem chooseVictim_none (st : ScanSt V) (hl : st.low = none) (hf : st.fb = none) :
    chooseVictim st = none := by
  unfold chooseVictim
  rw [hl, hf]

/-- `shardAt` through an arbitrary cache whose shard list is a `set`. -/
theorem shardAt_of_set (c : CloxCache V) (sid : Nat) (sh' : Shard V) (cc : CloxCache V)
    (hs : cc.shards = c.shards.set sid sh') (j : Nat) :
    shardAt cc j = if sid = j ∧ j < c.shards.length then sh' else shardAt c j := by
  show cc.shards.getD j _ = _
  rw [hs]
  exact getD_set _ _ _ _ _

theorem evictFromShard_fst_some (c : CloxCache V) (sid S vs vi : Nat) (b : Bool)
    (h : chooseVictim (evictScanState c sid S) = some ((vs, vi), b)) :
    (evictFromShard c sid S).1 = 1 := by
  unfold evictFromShard
  dsimp only
  rw [h]

/-- A victimless eviction call returns 0 and only advances the hand. -/
theorem evictFromShard_none (c : CloxCache V) (sid S : Nat)
    (h : chooseVictim (evictScanState c sid S) = none) :
    (evictFromShard c sid S).1 = 0 ∧
      ∀ j : Nat, (shardAt (evictFromShard c sid S).2 j).slots = (shardAt c j).slots ∧
        (shardAt (evictFromShard c sid S).2 j).entryCount = (shardAt c j).entryCount ∧
        (shardAt (evictFromShard c sid S).2 j).ghostCount = (shardAt c j).ghostCount := by
  unfold evictFromShard
  dsimp only
  rw [h]
  refine ⟨rfl, fun j => ?_⟩
  rw [shardAt_of_set c sid _ _ rfl j]
  by_cases hc : sid = j ∧ j < c.shards.length
  · rw [if_pos hc]
    obtain ⟨rfl, -⟩ := hc
    exact ⟨rfl, rfl, rfl⟩
  · rw [if_neg hc]
    exact ⟨rfl, rfl, rfl⟩

/-- C3.  Eviction victim selection.  Arm (i): if some scanned live entry
has `freq ≤ k`, the low-frequency tracker holds such an entry with minimal
`lastAccess` among them, it is chosen as the (unprotected) victim and the
call evicts.  Arm (ii): otherwise, if some live entry was scanned, the
fallback tracker holds a scanned live entry with minimal `lastAccess`
overall, chosen as the (protected) victim.  Arm (iii): if the scan saw no
node at all, no victim is chosen, the call returns 0 and every chain,
entry count and ghost count is unchanged. -/
theorem C3_victim_selection (c : CloxCache V) (sid S : Nat) :
    ((∃ e ∈ evictScanSeq c sid S, pLow (shardAt c sid).k e.2 = true) →
      ∃ s i a, (evictScanState c sid S).low = some (s, i, a) ∧
        chooseVictim (evictScanState c sid S) = some ((s, i), true) ∧
        (evictFromShard c sid S).1 = 1 ∧
        (∃ e ∈ evictScanSeq c sid S,
          pLow (shardAt c sid).k e.2 = true ∧ e.1 = (s, i) ∧ e.2.lastAccess = a) ∧
        (∀ e ∈ evictScanSeq c sid S, pLow (shardAt c sid).k e.2 = true →
          a ≤ e.2.lastAccess)) ∧
    ((∀ e ∈ evictScanSeq c sid S, pLow (shardAt c sid).k e.2 = false) →
      (∃ e ∈ evictScanSeq c sid S, pLive e.2 = true) →
      ∃ s i a, (evictScanState c sid S).fb = some (s, i, a) ∧
        chooseVictim (evictScanState c sid S) = some ((s, i), false) ∧
        (evictFromShard c sid S).1 = 1 ∧
        (∃ e ∈ evictScanSeq c sid S,
          pLive e.2 = true ∧ e.1 = (s, i) ∧ e.2.lastAccess = a) ∧
        (∀ e ∈ evictScanSeq c sid S, pLive e.2 = true → a ≤ e.2.lastAccess)) ∧
    (evictScanSeq c sid S = [] →
      (evictFromShard c sid S).1 = 0 ∧
      ∀ j : Nat, (shardAt (evictFromShard c sid S).2 j).slots = (shardAt c j).slots ∧
        (shardAt (evictFromShard c sid S).2 j).entryCount = (shardAt c j).entryCount ∧
        (shardAt (evictFromShard c sid S).2 j).ghostCount = (shardAt c j).ghostCount) := by
  have hlow := evictScanState_low c sid S
  have hfb := evictScanState_fb c sid S
  refine ⟨?_, ?_, ?_⟩
  · rintro ⟨e, he, hp⟩
    cases hsome : (evictScanState c sid S).low with
    | none =>
      rw [hsome] at hlow
      have h0 := (trkFold_none_iff _ _ _).mp hlow.symm
      exact absurd (h0.2 e he) (by simp [hp])
    | some x =>
      obtain ⟨s, i, a⟩ := x
      rw [hsome] at hlow
      have hcv := chooseVictim_low _ s i a hsome
      rcases trkFold_sound _ _ _ _ _ _ hlow.symm with hcon | hex
      · exact absurd hcon (by simp)
      · exact ⟨s, i, a, rfl, hcv, evictFromShard_fst_some c sid S s i true hcv, hex,
          trkFold_min _ _ _ _ _ _ hlow.symm⟩
  · rintro hall ⟨e, he, hp⟩
    have hlnone : (evictScanState c sid S).low = none := by
      rw [hlow]
      exact (trkFold_none_iff _ _ _).mpr ⟨rfl, hall⟩
    cases hsome : (evictScanState c sid S).fb with
    | none =>
      rw [hsome] at hfb
      have h0 := (trkFold_none_iff _ _ _).mp hfb.symm
      exact absurd (h0.2 e he) (by simp [hp])
    | some x =>
      obtain ⟨s, i, a⟩ := x
      rw [hsome] at hfb
      have hcv := chooseVictim_fb _ s i a hlnone hsome
      rcases trkFold_sound _ _ _ _ _ _ hfb.symm with hcon | hex
      · exact absurd hcon (by simp)
      · exact ⟨s, i, a, rfl, hcv, evictFromShard_fst_some c sid S s i false hcv, hex,
          trkFold_min _ _ _ _ _ _ hfb.symm⟩
  · intro hseq
    rw [hseq] at hlow hfb
    exact evictFromShard_none c sid S (chooseVictim_none _ hlow hfb)

/-- A concrete cache holding one live low-frequency entry (key `[1]`,
value 5, `freq = 1 ≤ k`). -/
def c3W : CloxCache Nat := (Put hashW [1] 5 cW).2

/-- The same cache after two hits on the entry, which raise its frequency
to `3 > k`: the scan sees a live entry but no low-frequency one. -/
def c3W2 : CloxCache Nat := (Get hashW [1] (Get hashW [1] c3W).2).2

/-- Witness for C3: arm (i) at a cache with a low-frequency entry, arm
(ii) at a cache whose only entry is protected, arm (iii) at the empty
cache. -/
theorem C3_victim_selection_witness :
    (∃ s i a, (evictScanState c3W 0 4).low = some (s, i, a) ∧
        chooseVictim (evictScanState c3W 0 4) = some ((s, i), true) ∧
        (evictFromShard c3W 0 4).1 = 1 ∧
        (∃ e ∈ evictScanSeq c3W 0 4,
          pLow (shardAt c3W 0).k e.2 = true ∧ e.1 = (s, i) ∧ e.2.lastAccess = a) ∧
        (∀ e ∈ evictScanSeq c3W 0 4, pLow (shardAt c3W 0).k e.2 = true →
          a ≤ e.2.lastAccess)) ∧
    (∃ s i a, (evictScanState c3W2 0 4).fb = some (s, i, a) ∧
        chooseVictim (evictScanState c3W2 0 4) = some ((s, i), false) ∧
        (evictFromShard c3W2 0 4).1 = 1 ∧
        (∃ e ∈ evictScanSeq c3W2 0 4,
          pLive e.2 = true ∧ e.1 = (s, i) ∧ e.2.lastAccess = a) ∧
        (∀ e ∈ evictScanSeq c3W2 0 4, pLive e.2 = true → a ≤ e.2.lastAccess)) ∧
    ((evictFromShard cW 0 4).1 = 0 ∧
      ∀ j : Nat, (shardAt (evictFromShard cW 0 4).2 j).slots = (shardAt cW j).slots ∧
        (shardAt (evictFromShard cW 0 4).2 j).entryCount = (shardAt cW j).entryCount ∧
        (shardAt (evictFromShard cW 0 4).2 j).ghostCount = (shardAt cW j).ghostCount) :=
  ⟨(C3_victim_selection c3W 0 4).1 (by decide),
   (C3_victim_selection c3W2 0 4).2.1 (by decide) (by decide),
   (C3_victim_selection cW 0 4).2.2 (by decide)⟩

theorem adaptCheck_entryCount (sh3 : Shard V) :
    (adaptCheck sh3).entryCount = sh3.entryCount := by
  unfold adaptCheck
  dsimp only
  split
  · rw [(adaptFrame _).2.1]
  · rfl

theorem adaptCheck_ghostCount (sh3 : Shard V) :
    (adaptCheck sh3).ghostCount = sh3.ghostCount := by
  unfold adaptCheck
  dsimp only
  split
  · rw [(adaptFrame _).2.2.1]
  · rfl

/-- When the victim is unprotected and the ghost queue has room, the
ghost-room step does nothing and reports `canGhost = true`. -/
theorem ghostRoomStep_permits (st : ScanSt V) (sh1 : Shard V) (vs vi : Nat)
    (hgc : (0 : Int) < sh1.ghostCapacity) (hcnt : sh1.ghostCount < sh1.ghostCapacity) :
    ghostRoomStep st sh1 vs vi true = (sh1, vi, true) := by
  unfold ghostRoomStep
  rw [decide_eq_true hgc, decide_eq_true hcnt]
  simp

/-- With `canGhost = true` the eviction demotes the victim in place. -/
theorem demoteOrUnlink_ghost (cs : Bool) (sh2 : Shard V) (vs vi2 : Nat) :
    demoteOrUnlink cs sh2 vs vi2 true =
      ({ sh2 with
          slots := sh2.slots.set vs (listModify (fun n => { n with freq := -n.freq })
            (Shard.chain sh2 vs) vi2)
          entryCount := sh2.entryCount - 1
          ghostCount := sh2.ghostCount + 1 }, 0) := by
  unfold demoteOrUnlink
  rw [if_pos rfl]

/-- C2.  Ghost demotion: when the eviction scan selects an unprotected
victim (the low-frequency tracker hit at chain position `(s, i)`) and
ghost capacity permits (`ghostCapacity > 0` and `ghostCount <
ghostCapacity`), the call evicts by demoting the victim in place rather
than unlinking it: its `freq` is replaced by `-freq`, the shard's
`entryCount` is decremented and its `ghostCount` incremented, and the
victim's chain keeps its length — the node remains linked. -/
theorem C2_ghost_demotion (c : CloxCache V) (sid S s i a : Nat)
    (hsid : sid < c.shards.length)
    (hlow : (evictScanState c sid S).low = some (s, i, a))
    (hgc : (0 : Int) < (shardAt c sid).ghostCapacity)
    (hcnt : (shardAt c sid).ghostCount < (shardAt c sid).ghostCapacity) :
    (evictFromShard c sid S).1 = 1 ∧
    (shardAt (evictFromShard c sid S).2 sid).entryCount =
      (shardAt c sid).entryCount - 1 ∧
    (shardAt (evictFromShard c sid S).2 sid).ghostCount =
      (shardAt c sid).ghostCount + 1 ∧
    (shardAt (evictFromShard c sid S).2 sid).slots =
      (shardAt c sid).slots.set s
        (listModify (fun n => { n with freq := -n.freq })
          (Shard.chain (shardAt c sid) s) i) ∧
    (Shard.chain (shardAt (evictFromShard c sid S).2 sid) s).length =
      (Shard.chain (shardAt c sid) s).length := by
  have hcv := chooseVictim_low _ s i a hlow
  unfold evictFromShard
  dsimp only
  rw [hcv]
  dsimp only
  rw [if_pos rfl]
  rw [ghostRoomStep_permits]
  · dsimp only
    rw [demoteOrUnlink_ghost]
    dsimp only
    rw [shardAt_of_set c sid _ _ rfl sid, if_pos ⟨rfl, hsid⟩]
    refine ⟨rfl, ?_, ?_, ?_, ?_⟩
    · rw [adaptCheck_entryCount]
    · rw [adaptCheck_ghostCount]
    · rw [adaptCheck_slots]
      rfl
    · show ((adaptCheck _).slots.getD s []).length = _
      rw [adaptCheck_slots]
      show (((shardAt c sid).slots.set s _).getD s []).length = _
      rw [getD_set]
      by_cases hs : s < (shardAt c sid).slots.length
      · rw [if_pos ⟨rfl, hs⟩, length_listModify]
        rfl
      · rw [if_neg (by rintro ⟨-, h2⟩; exact hs h2)]
        rfl
  · exact hgc
  · exact hcnt

/-- Witness for C2: the one-entry cache `c3W` has its entry at slot 1,
chain index 0, `lastAccess` 1; ghost capacity is 2 with no ghosts. -/
theorem C2_ghost_demotion_witness :
    (evictFromShard c3W 0 4).1 = 1 ∧
    (shardAt (evictFromShard c3W 0 4).2 0).entryCount =
      (shardAt c3W 0).entryCount - 1 ∧
    (shardAt (evictFromShard c3W 0 4).2 0).ghostCount =
      (shardAt c3W 0).ghostCount + 1 ∧
    (shardAt (evictFromShard c3W 0 4).2 0).slots =
      (shardAt c3W 0).slots.set 1
        (listModify (fun n => { n with freq := -n.freq })
          (Shard.chain (shardAt c3W 0) 1) 0) ∧
    (Shard.chain (shardAt (evictFromShard c3W 0 4).2 0) 1).length =
      (Shard.chain (shardAt c3W 0) 1).length :=
  C2_ghost_demotion c3W 0 4 1 0 1 (by decide) (by decide) (by decide) (by decide)

/-! ## Put failure characterisation (claim C4) -/

/-- An eviction call returns 0 exactly when the scan produced no victim. -/
theorem evictFromShard_fst_eq_zero_iff (c : CloxCache V) (sid S : Nat) :
    (evictFromShard c sid S).1 = 0 ↔
      chooseVictim (evictScanState c sid S) = none := by
  unfold evictFromShard
  dsimp only
  cases h : chooseVictim (evictScanState c sid S) with
  | none => simp
  | some x =>
    obtain ⟨⟨vs, vi⟩, b⟩ := x
    simp

/-- When the eviction loop reports failure, it stopped at a state still at
or above capacity on which the eviction scan found no victim. -/
theorem evictLoop_false (sid : Nat) :
    ∀ (fuel : Nat) (c : CloxCache V), (evictLoop sid fuel c).1 = false →
      ∃ c'' : CloxCache V, SameShape c c'' ∧
        (shardAt c'' sid).capacity ≤ (shardAt c'' sid).entryCount ∧
        (evictFromShard c'' sid (shardAt c'' sid).slots.length).1 = 0 := by
  intro fuel
  induction fuel with
  | zero =>
    intro c h
    exact absurd h (by simp [evictLoop])
  | succ f ih =>
    intro c h
    rw [evictLoop] at h
    dsimp only at h
    by_cases hcap : (shardAt c sid).capacity ≤ (shardAt c sid).entryCount
    · rw [if_pos hcap] at h
      by_cases hz : (evictFromShard c sid (shardAt c sid).slots.length).1 = 0
      · exact ⟨c, sameShape_refl c, hcap, hz⟩
      · rw [if_neg hz] at h
        obtain ⟨c'', hs, hc, he⟩ := ih _ h
        exact ⟨c'', sameShape_trans (evictFromShard_sameShape c sid _) hs, hc, he⟩
    · rw [if_neg hcap] at h
      exact absurd h (by simp)

/-- C4.  `Put` returns `false` only when, at some state reached by the
eviction loop of the owning shard, the shard's `entryCount` is at or
above its `capacity` and the eviction scan found no victim at all (the
scanner returned 0); every other path of `Put` returns `true`. -/
theorem C4_put_returns_false (hashKey : KeyBytes → Nat) (key : KeyBytes) (v : V)
    (c : CloxCache V) (hf : (Put hashKey key v c).1 = false) :
    ∃ c'' : CloxCache V, SameShape c c'' ∧
      (shardAt c'' (shardIdOf c (hashKey key))).capacity ≤
        (shardAt c'' (shardIdOf c (hashKey key))).entryCount ∧
      chooseVictim (evictScanState c'' (shardIdOf c (hashKey key))
        (shardAt c'' (shardIdOf c (hashKey key))).slots.length) = none ∧
      (evictFromShard c'' (shardIdOf c (hashKey key))
        (shardAt c'' (shardIdOf c (hashKey key))).slots.length).1 = 0 := by
  unfold Put at hf
  dsimp only at hf
  split at hf
  · exact absurd hf (by simp)
  · split at hf
    · exact absurd hf (by simp)
    · unfold putInsert at hf
      dsimp only at hf
      split at hf
      · exact absurd hf (by simp)
      · next hr =>
        have hfalse := Bool.eq_false_iff.mpr hr
        obtain ⟨c'', hs, hc, he⟩ := evictLoop_false _ _ _ hfalse
        exact ⟨c'', sameShape_trans
          (sameShape_set c (shardIdOf c (hashKey key))
            { shardAt c (shardIdOf c (hashKey key)) with
                timestamp := (shardAt c (shardIdOf c (hashKey key))).timestamp + 1 }
            c.evictions c.hits c.misses rfl) hs, hc,
          (evictFromShard_fst_eq_zero_iff _ _ _).mp he, he⟩

/-- A cache whose narrow scan window (25 percent of four slots scans one
slot) misses both stored entries, which fill the capacity of two. -/
def c4W : CloxCache Nat :=
  match NewCloxCache Nat ⟨1, 4, 2, false, 25⟩ with
  | .ok c => (Put hashW [2] 6 (Put hashW [0] 5 c).2).2
  | .error _ => ⟨[], 0, 0, false, 0, 0, 0, 0⟩

/-- Witness for C4: a concrete `Put` that fails. -/
theorem C4_put_returns_false_witness :
    ∃ c'' : CloxCache Nat, SameShape c4W c'' ∧
      (shardAt c'' (shardIdOf c4W (hashW [3]))).capacity ≤
        (shardAt c'' (shardIdOf c4W (hashW [3]))).entryCount ∧
      chooseVictim (evictScanState c'' (shardIdOf c4W (hashW [3]))
        (shardAt c'' (shardIdOf c4W (hashW [3]))).slots.length) = none ∧
      (evictFromShard c'' (shardIdOf c4W (hashW [3]))
        (shardAt c'' (shardIdOf c4W (hashW [3]))).slots.length).1 = 0 :=
  C4_put_returns_false hashW [3] 9 c4W (by decide)

/-! ## Capacity after Put (claim C5) -/

/-- A cache at capacity two with two live entries and one ghost: keys
`[0]`, `[1]` fill the shard, inserting `[2]` demotes `[0]` to a ghost. -/
def c5pre : CloxCache Nat :=
  (Put hashW [2] 8 (Put hashW [1] 6 (Put hashW [0] 5 cW).2).2).2

/-- Counterexample to C5 as stated: from a state with
`entryCount ≤ capacity`, a completed and successful `Put` that promotes a
ghost back to a live entry leaves `entryCount = capacity + 1` — the
ghost-promotion path of `Put` increments `entryCount` with no capacity
check. -/
theorem C5_capacity_counterexample :
    (shardAt c5pre 0).entryCount ≤ (shardAt c5pre 0).capacity ∧
    (Put hashW [0] 4 c5pre).1 = true ∧
    (shardAt (Put hashW [0] 4 c5pre).2 0).capacity = (shardAt c5pre 0).capacity ∧
    (shardAt (Put hashW [0] 4 c5pre).2 0).entryCount =
      (shardAt c5pre 0).capacity + 1 := by decide

theorem ghostRoomStep_entryCount (st : ScanSt V) (sh1 : Shard V) (vs vi : Nat)
    (isU : Bool) : (ghostRoomStep st sh1 vs vi isU).1.entryCount = sh1.entryCount := by
  unfold ghostRoomStep
  dsimp only
  split
  · split <;> rfl
  · rfl

theorem ghostRoomStep_capacity (st : ScanSt V) (sh1 : Shard V) (vs vi : Nat)
    (isU : Bool) : (ghostRoomStep st sh1 vs vi isU).1.capacity = sh1.capacity := by
  unfold ghostRoomStep
  dsimp only
  split
  · split <;> rfl
  · rfl

theorem demoteOrUnlink_entryCount (cs : Bool) (sh2 : Shard V) (vs vi2 : Nat)
    (cg : Bool) : (demoteOrUnlink cs sh2 vs vi2 cg).1.entryCount = sh2.entryCount - 1 := by
  unfold demoteOrUnlink
  split <;> rfl

theorem demoteOrUnlink_capacity (cs : Bool) (sh2 : Shard V) (vs vi2 : Nat)
    (cg : Bool) : (demoteOrUnlink cs sh2 vs vi2 cg).1.capacity = sh2.capacity := by
  unfold demoteOrUnlink
  split <;> rfl

theorem adaptCheck_capacity (sh3 : Shard V) : (adaptCheck sh3).capacity = sh3.capacity := by
  unfold adaptCheck
  dsimp only
  split
  · rw [(adaptFrame _).2.2.2.1]
  · rfl

/-- An eviction call never changes any shard's capacity. -/
theorem evictFromShard_capacity (c : CloxCache V) (sid S j : Nat) :
    (shardAt (evictFromShard c sid S).2 j).capacity = (shardAt c j).capacity := by
  unfold evictFromShard
  dsimp only
  split
  · rw [shardAt_of_set c sid _ _ rfl j]
    by_cases hc : sid = j ∧ j < c.shards.length
    · rw [if_pos hc]
      obtain ⟨rfl, -⟩ := hc
      rfl
    · rw [if_neg hc]
  · rw [shardAt_of_set c sid _ _ rfl j]
    by_cases hc : sid = j ∧ j < c.shards.length
    · rw [if_pos hc]
      obtain ⟨rfl, -⟩ := hc
      rw [adaptCheck_capacity, demoteOrUnlink_capacity, ghostRoomStep_capacity]
      split <;> rfl
    · rw [if_neg hc]

/-- A failed eviction call leaves the shard's entry count unchanged. -/
theorem evictFromShard_fail_entryCount (c : CloxCache V) (sid S : Nat)
    (h : (evictFromShard c sid S).1 = 0) :
    (shardAt (evictFromShard c sid S).2 sid).entryCount = (shardAt c sid).entryCount :=
  ((evictFromShard_none c sid S
    ((evictFromShard_fst_eq_zero_iff c sid S).mp h)).2 sid).2.1

/-- A successful eviction call decrements the shard's entry count by one. -/
theorem evictFromShard_success_entryCount (c : CloxCache V) (sid S : Nat)
    (hsid : sid < c.shards.length) (h : ¬(evictFromShard c sid S).1 = 0) :
    (shardAt (evictFromShard c sid S).2 sid).entryCount =
      (shardAt c sid).entryCount - 1 := by
  have hcv : ∃ x, chooseVictim (evictScanState c sid S) = some x := by
    cases hx : chooseVictim (evictScanState c sid S) with
    | none => exact absurd ((evictFromShard_fst_eq_zero_iff c sid S).mpr hx) h
    | some x => exact ⟨x, rfl⟩
  obtain ⟨⟨⟨vs, vi⟩, b⟩, hx⟩ := hcv
  unfold evictFromShard
  dsimp only
  rw [hx]
  dsimp only
  rw [shardAt_of_set c sid _ _ rfl sid, if_pos ⟨rfl, hsid⟩]
  rw [adaptCheck_entryCount, demoteOrUnlink_entryCount, ghostRoomStep_entryCount]
  split <;> rfl

theorem evictLoop_capacity (sid : Nat) :
    ∀ (fuel : Nat) (c : CloxCache V),
      (shardAt (evictLoop sid fuel c).2 sid).capacity = (shardAt c sid).capacity := by
  intro fuel
  induction fuel with
  | zero => intro c; rfl
  | succ f ih =>
    intro c
    rw [evictLoop]
    dsimp only
    by_cases hcap : (shardAt c sid).capacity ≤ (shardAt c sid).entryCount
    · rw [if_pos hcap]
      by_cases hz : (evictFromShard c sid (shardAt c sid).slots.length).1 = 0
      · rw [if_pos hz]
        exact evictFromShard_capacity c sid _ sid
      · rw [if_neg hz]
        rw [ih]
        exact evictFromShard_capacity c sid _ sid
    · rw [if_neg hcap]

/-- The eviction loop never increases the shard's entry count. -/
theorem evictLoop_entryCount_le (sid : Nat) :
    ∀ (fuel : Nat) (c : CloxCache V), sid < c.shards.length →
      (shardAt (evictLoop sid fuel c).2 sid).entryCount ≤
        (shardAt c sid).entryCount := by
  intro fuel
  induction fuel with
  | zero => intro c _; exact le_refl _
  | succ f ih =>
    intro c hsid
    rw [evictLoop]
    dsimp only
    by_cases hcap : (shardAt c sid).capacity ≤ (shardAt c sid).entryCount
    · rw [if_pos hcap]
      by_cases hz : (evictFromShard c sid (shardAt c sid).slots.length).1 = 0
      · rw [if_pos hz]
        exact le_of_eq (evictFromShard_fail_entryCount c sid _ hz)
      · rw [if_neg hz]
        have hlen : sid <
            (evictFromShard c sid (shardAt c sid).slots.length).2.shards.length := by
          rw [(evictFromShard_sameShape c sid _).2.2.1]
          exact hsid
        have h1 := ih _ hlen
        have h2 := evictFromShard_success_entryCount c sid _ hsid hz
        rw [h2] at h1
        exact le_trans h1 (by omega)
    · rw [if_neg hcap]

/-- With enough fuel, a successful eviction loop ends strictly below
capacity. -/
theorem evictLoop_true_lt (sid : Nat) :
    ∀ (fuel : Nat) (c : CloxCache V), sid < c.shards.length →
      ((shardAt c sid).entryCount - (shardAt c sid).capacity + 1).toNat ≤ fuel →
      (evictLoop sid fuel c).1 = true →
      (shardAt (evictLoop sid fuel c).2 sid).entryCount <
        (shardAt c sid).capacity := by
  intro fuel
  induction fuel with
  | zero =>
    intro c hsid hfuel _
    show (shardAt c sid).entryCount < (shardAt c sid).capacity
    omega
  | succ f ih =>
    intro c hsid hfuel htrue
    rw [evictLoop] at htrue ⊢
    dsimp only at htrue ⊢
    by_cases hcap : (shardAt c sid).capacity ≤ (shardAt c sid).entryCount
    · rw [if_pos hcap] at htrue ⊢
      by_cases hz : (evictFromShard c sid (shardAt c sid).slots.length).1 = 0
      · rw [if_pos hz] at htrue
        exact absurd htrue (by simp)
      · rw [if_neg hz] at htrue ⊢
        have hlen : sid <
            (evictFromShard c sid (shardAt c sid).slots.length).2.shards.length := by
          rw [(evictFromShard_sameShape c sid _).2.2.1]
          exact hsid
        have hec := evictFromShard_success_entryCount c sid _ hsid hz
        have hcp := evictFromShard_capacity c sid (shardAt c sid).slots.length sid
        have hfu : ((shardAt (evictFromShard c sid
              (shardAt c sid).slots.length).2 sid).entryCount -
            (shardAt (evictFromShard c sid
              (shardAt c sid).slots.length).2 sid).capacity + 1).toNat ≤ f := by
          rw [hec, hcp]
          omega
        have hres := ih _ hlen hfu htrue
        rw [hcp] at hres
        exact hres
    · rw [if_neg hcap]
      show (shardAt c sid).entryCount < (shardAt c sid).capacity
      omega

/-- The insertion tail leaves the shard either within capacity or no
fuller than it started. -/
theorem putInsert_entryCount (c1 : CloxCache V) (sid slotID : Nat)
    (node : RecordNode V) (hsid : sid < c1.shards.length) :
    (shardAt (putInsert c1 sid slotID node).2 sid).entryCount ≤
      (shardAt c1 sid).capacity ∨
    (shardAt (putInsert c1 sid slotID node).2 sid).entryCount ≤
      (shardAt c1 sid).entryCount := by
  have hfuel : ((shardAt c1 sid).entryCount - (shardAt c1 sid).capacity + 1).toNat ≤
      ((shardAt c1 sid).entryCount - (shardAt c1 sid).capacity).toNat + 2 := by omega
  have hsame := evictLoop_sameShape sid
    (((shardAt c1 sid).entryCount - (shardAt c1 sid).capacity).toNat + 2) c1
  have hlen : sid < (evictLoop sid
      (((shardAt c1 sid).entryCount -
        (shardAt c1 sid).capacity).toNat + 2) c1).2.shards.length := by
    rw [hsame.2.2.1]
    exact hsid
  unfold putInsert
  dsimp only
  split
  · next hr =>
    left
    rw [shardAt_of_set _ sid _ _ rfl sid, if_pos ⟨rfl, hlen⟩]
    show (shardAt (evictLoop sid (((shardAt c1 sid).entryCount -
        (shardAt c1 sid).capacity).toNat + 2) c1).2 sid).entryCount + 1 ≤
      (shardAt c1 sid).capacity
    have hlt := evictLoop_true_lt sid _ c1 hsid hfuel hr
    omega
  · next hr =>
    right
    exact evictLoop_entryCount_le sid _ c1 hsid

/-- C5, amended.  Assuming `entryCount ≤ capacity` held on the owning
shard, after a completed `Put` the shard's `entryCount` is at most
`capacity + 1` (the slack of one is reachable, through ghost promotion:
see the counterexample to the claim as stated). -/
theorem C5_capacity_amended (hashKey : KeyBytes → Nat) (key : KeyBytes) (v : V)
    (c : CloxCache V) (w : WF c)
    (hpre : (shardAt c (shardIdOf c (hashKey key))).entryCount ≤
      (shardAt c (shardIdOf c (hashKey key))).capacity) :
    (shardAt (Put hashKey key v c).2 (shardIdOf c (hashKey key))).entryCount ≤
      (shardAt c (shardIdOf c (hashKey key))).capacity + 1 := by
  have hsid : shardIdOf c (hashKey key) < c.shards.length := w.shardId_lt _
  unfold Put
  dsimp only
  split
  · rw [shardAt_of_set c _ _ _ rfl _, if_pos ⟨rfl, hsid⟩]
    show (shardAt c (shardIdOf c (hashKey key))).entryCount ≤ _
    omega
  · split
    · rw [shardAt_of_set c _ _ _ rfl _, if_pos ⟨rfl, hsid⟩]
      split
      · show (shardAt c (shardIdOf c (hashKey key))).entryCount + 1 ≤ _
        omega
      · show (shardAt c (shardIdOf c (hashKey key))).entryCount ≤ _
        omega
    · have hsid1 : shardIdOf c (hashKey key) <
          (c.shards.set (shardIdOf c (hashKey key))
            { shardAt c (shardIdOf c (hashKey key)) with
                timestamp :=
                  (shardAt c (shardIdOf c (hashKey key))).timestamp + 1 }).length := by
        rw [List.length_set]
        exact hsid
      have hcap1 : (shardAt ({ c with shards := (c.shards.set (shardIdOf c (hashKey key))
            { shardAt c (shardIdOf c (hashKey key)) with
                timestamp := (shardAt c (shardIdOf c (hashKey key))).timestamp + 1 }) } :
          CloxCache V) (shardIdOf c (hashKey key))).capacity =
          (shardAt c (shardIdOf c (hashKey key))).capacity := by
        rw [shardAt_of_set c _ _ _ rfl _, if_pos ⟨rfl, hsid⟩]
      have hent1 : (shardAt ({ c with shards := (c.shards.set (shardIdOf c (hashKey key))
            { shardAt c (shardIdOf c (hashKey key)) with
                timestamp := (shardAt c (shardIdOf c (hashKey key))).timestamp + 1 }) } :
          CloxCache V) (shardIdOf c (hashKey key))).entryCount =
          (shardAt c (shardIdOf c (hashKey key))).entryCount := by
        rw [shardAt_of_set c _ _ _ rfl _, if_pos ⟨rfl, hsid⟩]
      rcases putInsert_entryCount
          { c with shards := (c.shards.set (shardIdOf c (hashKey key))
              { shardAt c (shardIdOf c (hashKey key)) with
                  timestamp := (shardAt c (shardIdOf c (hashKey key))).timestamp + 1 }) }
          (shardIdOf c (hashKey key)) (slotIdOf c (hashKey key))
          ⟨v, hashKey key, initialFreq,
            (shardAt c (shardIdOf c (hashKey key))).timestamp + 1, copyKey key⟩
          hsid1 with h | h
      · dsimp only at h hcap1
        rw [hcap1] at h
        omega
      · dsimp only at h hent1
        rw [hent1] at h
        omega

/-- Witness for the amended C5 at a concrete input. -/
theorem C5_capacity_amended_witness :
    (shardAt (Put hashW [1] 5 cW).2 (shardIdOf cW (hashW [1]))).entryCount ≤
      (shardAt cW (shardIdOf cW (hashW [1]))).capacity + 1 :=
  C5_capacity_amended hashW [1] 5 cW
    ⟨by decide, by decide, by decide, by decide⟩ (by decide)

/-! ## Frequency-range invariant (claim C6) -/

/-- A stored frequency is in range: `1..15` for a live entry, `-15..-1`
for a ghost; zero is never stored. -/
def nodeFreqOK (n : RecordNode V) : Prop :=
  (1 ≤ n.freq ∧ n.freq ≤ maxFrequency) ∨ (-maxFrequency ≤ n.freq ∧ n.freq ≤ -1)

instance nodeFreqOK.dec (n : RecordNode V) : Decidable (nodeFreqOK n) := by
  unfold nodeFreqOK
  exact inferInstance

/-- Every node of every chain of a shard is in range. -/
def ShardFreqOK (sh : Shard V) : Prop :=
  ∀ ch ∈ sh.slots, ∀ n ∈ ch, nodeFreqOK n

instance ShardFreqOK.dec (sh : Shard V) : Decidable (ShardFreqOK sh) := by
  unfold ShardFreqOK
  exact inferInstance

/-- The frequency-range invariant over the whole cache. -/
def FreqInv (c : CloxCache V) : Prop := ∀ sh ∈ c.shards, ShardFreqOK sh

instance FreqInv.dec (c : CloxCache V) : Decidable (FreqInv c) := by
  unfold FreqInv
  exact inferInstance

theorem freqInv_shardAt (c : CloxCache V) (h : FreqInv c) (j : Nat) :
    ShardFreqOK (shardAt c j) := by
  unfold shardAt
  by_cases hj : j < c.shards.length
  · rw [List.getD_eq_getElem _ _ hj]
    exact h _ (List.getElem_mem _)
  · rw [List.getD_eq_default _ _ (Nat.le_of_not_lt hj)]
    intro ch hch
    cases hch

theorem shardFreqOK_chain (sh : Shard V) (h : ShardFreqOK sh) (q : Nat) :
    ∀ n ∈ Shard.chain sh q, nodeFreqOK n := by
  intro n hn
  unfold Shard.chain at hn
  by_cases hq : q < sh.slots.length
  · rw [List.getD_eq_getElem _ _ hq] at hn
    exact h _ (List.getElem_mem _) n hn
  · rw [List.getD_eq_default _ _ (Nat.le_of_not_lt hq)] at hn
    cases hn

theorem shardFreqOK_of_slots_eq {sh sh' : Shard V} (hs : sh'.slots = sh.slots)
    (h : ShardFreqOK sh) : ShardFreqOK sh' := by
  intro ch hch
  rw [hs] at hch
  exact h ch hch

/-- Replacing one shard with an in-range shard keeps the invariant. -/
theorem freqInv_set (c : CloxCache V) (sid : Nat) (sh' : Shard V) (cc : CloxCache V)
    (hs : cc.shards = c.shards.set sid sh')
    (h : FreqInv c) (hsh : ShardFreqOK sh') : FreqInv cc := by
  intro sh hmem
  rw [hs] at hmem
  rcases List.mem_or_eq_of_mem_set hmem with h1 | rfl
  · exact h sh h1
  · exact hsh

/-- In-place frequency negation keeps every node in range. -/
theorem listModify_neg_freqOK :
    ∀ (l : List (RecordNode V)) (i : Nat), (∀ m ∈ l, nodeFreqOK m) →
      ∀ n ∈ listModify (fun n => { n with freq := -n.freq }) l i, nodeFreqOK n := by
  intro l
  induction l with
  | nil =>
    intro i h n hn
    cases hn
  | cons m rest ih =>
    intro i h n hn
    cases i with
    | zero =>
      rcases List.mem_cons.mp hn with rfl | hn'
      · have hm := h m (List.mem_cons_self _ _)
        unfold nodeFreqOK at hm ⊢
        dsimp only
        omega
      · exact h n (List.mem_cons_of_mem _ hn')
    | succ j =>
      rcases List.mem_cons.mp hn with rfl | hn'
      · exact h _ (List.mem_cons_self _ _)
      · exact ih j (fun x hx => h x (List.mem_cons_of_mem _ hx)) n hn'

/-- The chain walk of `Get` keeps every node in range (the frequency bump
happens only below the cap). -/
theorem getWalk_chain_freqOK (hash : Nat) (key : KeyBytes) (k ec cap : Int) (ts : Nat) :
    ∀ (chain : List (RecordNode V)), (∀ m ∈ chain, nodeFreqOK m) →
      ∀ n ∈ (getWalk hash key k ec cap ts chain).chain, nodeFreqOK n := by
  intro chain
  induction chain with
  | nil =>
    intro h n hn
    cases hn
  | cons m rest ih =>
    intro h n hn
    rw [getWalk] at hn
    by_cases h1 : (m.keyHash == hash && keysEqual m.key key) = true
    · rw [if_pos h1] at hn
      by_cases h2 : m.freq ≤ 0
      · rw [if_pos h2] at hn
        dsimp only at hn
        rcases List.mem_cons.mp hn with rfl | hn'
        · exact h _ (List.mem_cons_self _ _)
        · exact ih (fun x hx => h x (List.mem_cons_of_mem _ hx)) n hn'
      · rw [if_neg h2] at hn
        by_cases h3 : m.freq < maxFrequency
        · rw [if_pos h3] at hn
          dsimp only at hn
          rcases List.mem_cons.mp hn with rfl | hn'
          · have hm := h m (List.mem_cons_self _ _)
            unfold nodeFreqOK at hm ⊢
            dsimp only
            omega
          · exact h n (List.mem_cons_of_mem _ hn')
        · rw [if_neg h3] at hn
          dsimp only at hn
          exact h n hn
    · rw [if_neg h1] at hn
      dsimp only at hn
      rcases List.mem_cons.mp hn with rfl | hn'
      · exact h _ (List.mem_cons_self _ _)
      · exact ih (fun x hx => h x (List.mem_cons_of_mem _ hx)) n hn'

/-- The lock-free update walk of `Put` keeps every node in range. -/
theorem putFreeWalk_freqOK (hash : Nat) (key : KeyBytes) (v : V) (ts1 : Nat) :
    ∀ (chain chain' : List (RecordNode V)), (∀ m ∈ chain, nodeFreqOK m) →
      putFreeWalk hash key v ts1 chain = some chain' →
      ∀ n ∈ chain', nodeFreqOK n := by
  intro chain
  induction chain with
  | nil =>
    intro chain' h heq
    simp [putFreeWalk] at heq
  | cons m rest ih =>
    intro chain' h heq
    rw [putFreeWalk] at heq
    by_cases h1 : (m.keyHash == hash && keysEqual m.key key) = true
    · rw [if_pos h1] at heq
      by_cases h2 : m.freq ≤ 0
      · rw [if_pos h2] at heq
        cases hr : putFreeWalk hash key v ts1 rest with
        | none =>
          rw [hr] at heq
          simp at heq
        | some cr =>
          rw [hr] at heq
          have hcc : m :: cr = chain' := Option.some.inj heq
          subst hcc
          intro n hn
          rcases List.mem_cons.mp hn with rfl | hn'
          · exact h _ (List.mem_cons_self _ _)
          · exact ih cr (fun x hx => h x (List.mem_cons_of_mem _ hx)) hr n hn'
      · rw [if_neg h2] at heq
        injection heq with hcl
        subst hcl
        intro n hn
        rcases List.mem_cons.mp hn with rfl | hn'
        · have hm := h m (List.mem_cons_self _ _)
          unfold nodeFreqOK at hm ⊢
          dsimp only
          split_ifs with h4
          · omega
          · omega
        · exact h n (List.mem_cons_of_mem _ hn')
    · rw [if_neg h1] at heq
      cases hr : putFreeWalk hash key v ts1 rest with
      | none =>
        rw [hr] at heq
        simp at heq
      | some cr =>
        rw [hr] at heq
        have hcc : m :: cr = chain' := Option.some.inj heq
        subst hcc
        intro n hn
        rcases List.mem_cons.mp hn with rfl | hn'
        · exact h _ (List.mem_cons_self _ _)
        · exact ih cr (fun x hx => h x (List.mem_cons_of_mem _ hx)) hr n hn'

/-- The locked re-walk of `Put` keeps every node in range: a promoted
ghost gets its frequency clamped into `1..15`. -/
theorem putLockedWalk_freqOK (hash : Nat) (key : KeyBytes) (v : V) (ts1 : Nat) :
    ∀ (chain chain' : List (RecordNode V)) (b : Bool), (∀ m ∈ chain, nodeFreqOK m) →
      putLockedWalk hash key v ts1 chain = some (chain', b) →
      ∀ n ∈ chain', nodeFreqOK n := by
  intro chain
  induction chain with
  | nil =>
    intro chain' b h heq
    simp [putLockedWalk] at heq
  | cons m rest ih =>
    intro chain' b h heq
    rw [putLockedWalk] at heq
    by_cases h1 : (m.keyHash == hash && keysEqual m.key key) = true
    · rw [if_pos h1] at heq
      by_cases h2 : m.freq ≤ 0
      · rw [if_pos h2] at heq
        dsimp only at heq
        injection heq with heq2
        injection heq2 with hcl hb
        subst hcl
        intro n hn
        rcases List.mem_cons.mp hn with rfl | hn'
        · unfold nodeFreqOK
          dsimp only
          simp only [maxFrequency, initialFreq]
          split_ifs <;> omega
        · exact h n (List.mem_cons_of_mem _ hn')
      · rw [if_neg h2] at heq
        injection heq with heq2
        injection heq2 with hcl hb
        subst hcl
        intro n hn
        rcases List.mem_cons.mp hn with rfl | hn'
        · have hm := h m (List.mem_cons_self _ _)
          unfold nodeFreqOK at hm ⊢
          dsimp only
          exact hm
        · exact h n (List.mem_cons_of_mem _ hn')
    · rw [if_neg h1] at heq
      cases hr : putLockedWalk hash key v ts1 rest with
      | none =>
        rw [hr] at heq
        simp at heq
      | some pr =>
        obtain ⟨p1, p2⟩ := pr
        rw [hr] at heq
        have heq2 : (m :: p1, p2) = (chain', b) := Option.some.inj heq
        injection heq2 with hcl hb
        subst hcl
        intro n hn
        rcases List.mem_cons.mp hn with rfl | hn'
        · exact h _ (List.mem_cons_self _ _)
        · exact ih p1 p2 (fun x hx => h x (List.mem_cons_of_mem _ hx)) hr n hn'

/-- A freshly constructed cache satisfies the invariant (all chains are
empty). -/
theorem newCloxCache_freqInv (V : Type) (cfg : Config) (c0 : CloxCache V)
    (h : NewCloxCache V cfg = .ok c0) : FreqInv c0 := by
  unfold NewCloxCache at h
  dsimp only at h
  split_ifs at h
  all_goals cases h
  all_goals
    intro sh hsh ch hch n hn
    rw [List.eq_of_mem_replicate hsh] at hch
    have hce := List.eq_of_mem_replicate hch
    subst hce
    cases hn

theorem ghostRoomStep_freqOK (st : ScanSt V) (sh1 : Shard V) (vs vi : Nat)
    (isU : Bool) (h : ShardFreqOK sh1) :
    ShardFreqOK (ghostRoomStep st sh1 vs vi isU).1 := by
  unfold ghostRoomStep
  dsimp only
  split
  · split
    · intro ch hch
      dsimp only at hch
      rcases List.mem_or_eq_of_mem_set hch with h1 | rfl
      · exact h ch h1
      · intro n hn
        exact shardFreqOK_chain sh1 h _ n ((List.eraseIdx_sublist _ _).subset hn)
    · exact h
  · exact h

theorem demoteOrUnlink_freqOK (cs : Bool) (sh2 : Shard V) (vs vi2 : Nat)
    (cg : Bool) (h : ShardFreqOK sh2) :
    ShardFreqOK (demoteOrUnlink cs sh2 vs vi2 cg).1 := by
  unfold demoteOrUnlink
  split
  · intro ch hch
    dsimp only at hch
    rcases List.mem_or_eq_of_mem_set hch with h1 | rfl
    · exact h ch h1
    · exact listModify_neg_freqOK _ _ (shardFreqOK_chain sh2 h vs)
  · intro ch hch
    dsimp only at hch
    rcases List.mem_or_eq_of_mem_set hch with h1 | rfl
    · exact h ch h1
    · intro n hn
      exact shardFreqOK_chain sh2 h vs n ((List.eraseIdx_sublist _ _).subset hn)

theorem adaptCheck_freqOK (sh3 : Shard V) (h : ShardFreqOK sh3) :
    ShardFreqOK (adaptCheck sh3) :=
  shardFreqOK_of_slots_eq (adaptCheck_slots sh3) h

/-- An eviction call preserves the invariant: demotion negates a
frequency in place and stays in range; unlinks only remove nodes. -/
theorem evictFromShard_freqInv (c : CloxCache V) (sid S : Nat) (h : FreqInv c) :
    FreqInv (evictFromShard c sid S).2 := by
  unfold evictFromShard
  dsimp only
  split
  · exact freqInv_set c _ _ _ rfl h (freqInv_shardAt c h sid)
  · apply freqInv_set c _ _ _ rfl h
    apply adaptCheck_freqOK
    apply demoteOrUnlink_freqOK
    apply ghostRoomStep_freqOK
    split <;> exact freqInv_shardAt c h sid

theorem evictLoop_freqInv (sid : Nat) :
    ∀ (fuel : Nat) (c : CloxCache V), FreqInv c → FreqInv (evictLoop sid fuel c).2 := by
  intro fuel
  induction fuel with
  | zero =>
    intro c h
    exact h
  | succ f ih =>
    intro c h
    rw [evictLoop]
    dsimp only
    split
    · split
      · exact evictFromShard_freqInv c sid _ h
      · exact ih _ (evictFromShard_freqInv c sid _ h)
    · exact h

theorem putInsert_freqInv (c1 : CloxCache V) (sid slotID : Nat)
    (node : RecordNode V) (h : FreqInv c1) (hn : nodeFreqOK node) :
    FreqInv (putInsert c1 sid slotID node).2 := by
  unfold putInsert
  dsimp only
  split
  · apply freqInv_set _ _ _ _ rfl (evictLoop_freqInv sid _ c1 h)
    intro ch hch
    dsimp only at hch
    rcases List.mem_or_eq_of_mem_set hch with h1 | rfl
    · exact freqInv_shardAt _ (evictLoop_freqInv sid _ c1 h) sid ch h1
    · intro n hn2
      rcases List.mem_cons.mp hn2 with rfl | h3
      · exact hn
      · exact shardFreqOK_chain _ (freqInv_shardAt _ (evictLoop_freqInv sid _ c1 h) sid)
          slotID n h3
  · exact evictLoop_freqInv sid _ c1 h

/-- `Get` preserves the invariant. -/
theorem get_freqInv (hashKey : KeyBytes → Nat) (key : KeyBytes) (c : CloxCache V)
    (h : FreqInv c) : FreqInv (Get hashKey key c).2 := by
  unfold Get
  dsimp only
  split
  · apply freqInv_set c _ _ _ rfl h
    intro ch hch
    dsimp only at hch
    rcases List.mem_or_eq_of_mem_set hch with h1 | rfl
    · exact freqInv_shardAt c h _ ch h1
    · exact getWalk_chain_freqOK _ _ _ _ _ _ _
        (shardFreqOK_chain _ (freqInv_shardAt c h _) _)
  · exact freqInv_set c _ _ _ rfl h (freqInv_shardAt c h _)

/-- `Put` preserves the invariant. -/
theorem put_freqInv (hashKey : KeyBytes → Nat) (key : KeyBytes) (v : V)
    (c : CloxCache V) (h : FreqInv c) : FreqInv (Put hashKey key v c).2 := by
  unfold Put
  dsimp only
  split
  · next chain' hfw =>
    apply freqInv_set c _ _ _ rfl h
    have hOK : ∀ n ∈ chain', nodeFreqOK n :=
      putFreeWalk_freqOK _ _ _ _ _ chain'
        (shardFreqOK_chain _ (freqInv_shardAt c h _) _) hfw
    intro ch hch
    dsimp only at hch
    rcases List.mem_or_eq_of_mem_set hch with h1 | rfl
    · exact freqInv_shardAt c h _ ch h1
    · exact hOK
  · split
    · next chain' promoted hlw =>
      apply freqInv_set c _ _ _ rfl h
      have hOK : ∀ n ∈ chain', nodeFreqOK n :=
        putLockedWalk_freqOK _ _ _ _ _ chain' promoted
          (shardFreqOK_chain _ (freqInv_shardAt c h _) _) hlw
      split <;>
      · intro ch hch
        dsimp only at hch
        rcases List.mem_or_eq_of_mem_set hch with h1 | rfl
        · exact freqInv_shardAt c h _ ch h1
        · exact hOK
    · apply putInsert_freqInv
      · exact freqInv_set c _ _ _ rfl h (freqInv_shardAt c h _)
      · unfold nodeFreqOK
        dsimp only
        simp only [initialFreq, maxFrequency]
        omega

/-- C6.  Frequency-range invariant: every entry reachable from any slot
has `1 ≤ freq ≤ 15` when live and `-15 ≤ freq ≤ -1` when a ghost (zero is
never stored), and the invariant holds after construction and is
preserved by `Get`, `Put` and `evictFromShard`. -/
theorem C6_freq_range (hashKey : KeyBytes → Nat) (key : KeyBytes) (v : V)
    (cfg : Config) (c0 : CloxCache V) (h0 : NewCloxCache V cfg = .ok c0)
    (c : CloxCache V) (hc : FreqInv c) (sid S : Nat) :
    FreqInv c0 ∧ FreqInv (Get hashKey key c).2 ∧ FreqInv (Put hashKey key v c).2 ∧
    FreqInv (evictFromShard c sid S).2 :=
  ⟨newCloxCache_freqInv V cfg c0 h0, get_freqInv hashKey key c hc,
   put_freqInv hashKey key v c hc, evictFromShard_freqInv c sid S hc⟩

/-- Witness for C6 at concrete inputs. -/
theorem C6_freq_range_witness :
    FreqInv cW ∧ FreqInv (Get hashW [1] c3W).2 ∧ FreqInv (Put hashW [1] 9 c3W).2 ∧
    FreqInv (evictFromShard c3W 0 4).2 :=
  C6_freq_range hashW [1] 9 ⟨1, 4, 2, false, 100⟩ cW rfl c3W (by decide) 0 4

/-! ## Key-copy isolation (claim C9) -/

/-- A heap of byte buffers: buffer identities are naturals, each holding
its current bytes.  Go's `[]byte` keys are references into such a heap;
the cache reads a buffer's bytes once, at `Put`, through `copyKey`. -/
def Heap := Nat → KeyBytes

/-- Mutating one buffer in place. -/
def writeBuf (heap : Heap) (b : Nat) (bytes : KeyBytes) : Heap :=
  fun x => if x = b then bytes else heap x

/-- `Put` called with a key buffer: the stored key is the defensive copy
of the buffer's bytes at call time. -/
def putBuf (hashKey : KeyBytes → Nat) (heap : Heap) (b : Nat) (v : V)
    (c : CloxCache V) : Bool × CloxCache V :=
  Put hashKey (copyKey (heap b)) v c

/-- `Get` called with a key buffer: looks up the buffer's current bytes. -/
def getBuf (hashKey : KeyBytes → Nat) (heap : Heap) (b : Nat) (c : CloxCache V) :
    Option V × CloxCache V :=
  Get hashKey (heap b) c

/-- C9.  Key-copy isolation: after a successful `Put` through buffer `b`
holding `bytes`, mutating `b` arbitrarily does not disturb the stored
entry — a `Get` through any fresh buffer `b'` that (after the mutation)
holds the original bytes still returns the stored value. -/
theorem C9_key_copy_isolation (hashKey : KeyBytes → Nat) (heap : Heap) (b b' : Nat)
    (bytes mb : KeyBytes) (v : V) (c : CloxCache V) (w : WF c)
    (hb : heap b = bytes)
    (hfresh : writeBuf heap b mb b' = bytes)
    (hput : (putBuf hashKey heap b v c).1 = true) :
    (getBuf hashKey (writeBuf heap b mb) b' (putBuf hashKey heap b v c).2).1 =
      some v := by
  unfold putBuf at hput ⊢
  unfold getBuf
  rw [hfresh, hb] at *
  exact get_after_put hashKey bytes v c w hput

/-- Witness for C9: buffer 0 holds `[1]`, is mutated to `[9]` after the
put, and the fresh buffer 1 holds the original `[1]`. -/
theorem C9_key_copy_isolation_witness :
    (getBuf hashW (writeBuf (fun _ => [1]) 0 [9]) 1
      (putBuf hashW (fun _ => [1]) 0 5 cW).2).1 = some 5 :=
  C9_key_copy_isolation hashW (fun _ => [1]) 0 1 [1] [9] 5 cW
    ⟨by decide, by decide, by decide, by decide⟩
    (by decide) (by decide) (by decide)

end Clox

/-! ## The protected-frequency variant (claim C10)

The first generation of `cloxcache.go` has no ghost queue: entries carry a
frequency in `0..15` and a fixed protection threshold.  Claim C10 cites its
`Get`, embedded here in namespace `PF`. -/

namespace PF

/-- `recordNode` of the protected-frequency variant. -/
structure RecordNode (V : Type) where
  value : V
  keyHash : Nat
  freq : Int
  lastAccess : Nat
  key : Clox.KeyBytes
deriving DecidableEq

/-- `shard` of the protected-frequency variant. -/
structure Shard (V : Type) where
  slots : List (List (RecordNode V))
  entryCount : Int
  capacity : Int
  hand : Nat
  timestamp : Nat
deriving DecidableEq

/-- `CloxCache` of the protected-frequency variant. -/
structure CloxCache (V : Type) where
  shards : List (Shard V)
  numShards : Nat
  shardBits : Nat
  collectStats : Bool
  sweepPercent : Nat
  hits : Nat
  misses : Nat
  evictions : Nat
deriving DecidableEq

/-- Out-of-range default shard. -/
def Shard.dflt (V : Type) : Shard V := ⟨[], 0, 0, 0, 0⟩

/-- `hash & (numShards-1)` for the power-of-two shard count. -/
def shardIdOf (c : CloxCache V) (hash : Nat) : Nat := hash % c.numShards

/-- `len(c.shards[0].slots)`. -/
def slotsLen (c : CloxCache V) : Nat := (c.shards.getD 0 (Shard.dflt V)).slots.length

/-- `(hash >> shardBits) & (slotsPerShard-1)`. -/
def slotIdOf (c : CloxCache V) (hash : Nat) : Nat := (hash / 2 ^ c.shardBits) % slotsLen c

/-- The shard at an index. -/
def shardAt (c : CloxCache V) (i : Nat) : Shard V := c.shards.getD i (Shard.dflt V)

/-- The chain stored in slot `q`. -/
def Shard.chain (sh : Shard V) (q : Nat) : List (RecordNode V) := sh.slots.getD q []

/-- The chain walk of the protected-frequency `Get`: on the first match,
bump `freq` when below the cap (the CAS of the uncontended execution
succeeds) and refresh `lastAccess` from the incremented shard timestamp;
returns the answer, the updated chain, and the updated timestamp. -/
def getWalk (hash : Nat) (key : Clox.KeyBytes) (ts : Nat) :
    List (RecordNode V) → Option V × List (RecordNode V) × Nat
  | [] => (none, [], ts)
  | n :: rest =>
    if n.keyHash == hash && Clox.keysEqual n.key key then
      if n.freq < Clox.maxFrequency then
        (some n.value, { n with freq := n.freq + 1, lastAccess := ts + 1 } :: rest, ts + 1)
      else (some n.value, n :: rest, ts)
    else
      let r := getWalk hash key ts rest
      (r.1, n :: r.2.1, r.2.2)

/-- `Get` of the protected-frequency variant (`cloxcache.go` 165-201). -/
def Get (hashKey : Clox.KeyBytes → Nat) (key : Clox.KeyBytes) (c : CloxCache V) :
    Option V × CloxCache V :=
  let hash := hashKey key
  let shardID := shardIdOf c hash
  let slotID := slotIdOf c hash
  let sh := shardAt c shardID
  let r := getWalk hash key sh.timestamp (Shard.chain sh slotID)
  let sh' := { sh with slots := sh.slots.set slotID r.2.1
                       timestamp := r.2.2 }
  match r.1 with
  | some v =>
    (some v, { c with shards := c.shards.set shardID sh'
                      hits := if c.collectStats then c.hits + 1 else c.hits })
  | none =>
    (none, { c with shards := c.shards.set shardID sh'
                    misses := if c.collectStats then c.misses + 1 else c.misses })

/-- How `Get` may relate a chain node to its post-call self: everything
unchanged, or — for a node matching the key, below the frequency cap —
exactly `freq + 1` and a refreshed `lastAccess`; value, hash and key are
unchanged either way. -/
def nodeFrame (hash : Nat) (key : Clox.KeyBytes) (ts : Nat)
    (n n' : RecordNode V) : Prop :=
  n'.value = n.value ∧ n'.keyHash = n.keyHash ∧ n'.key = n.key ∧
  (n' = n ∨
    ((n.keyHash == hash && Clox.keysEqual n.key key) = true ∧
      n.freq < Clox.maxFrequency ∧ n'.freq = n.freq + 1 ∧ n'.lastAccess = ts + 1))

theorem getWalk_frame (hash : Nat) (key : Clox.KeyBytes) (ts : Nat) :
    ∀ chain : List (RecordNode V),
      List.Forall₂ (nodeFrame hash key ts) chain (getWalk hash key ts chain).2.1 := by
  intro chain
  induction chain with
  | nil => exact List.Forall₂.nil
  | cons n rest ih =>
    rw [getWalk]
    by_cases h1 : (n.keyHash == hash && Clox.keysEqual n.key key) = true
    · rw [if_pos h1]
      by_cases h2 : n.freq < Clox.maxFrequency
      · rw [if_pos h2]
        exact List.Forall₂.cons ⟨rfl, rfl, rfl, Or.inr ⟨h1, h2, rfl, rfl⟩⟩
          (List.forall₂_same.mpr (fun x _ => ⟨rfl, rfl, rfl, Or.inl rfl⟩))
      · rw [if_neg h2]
        exact List.Forall₂.cons ⟨rfl, rfl, rfl, Or.inl rfl⟩
          (List.forall₂_same.mpr (fun x _ => ⟨rfl, rfl, rfl, Or.inl rfl⟩))
    · rw [if_neg h1]
      exact List.Forall₂.cons ⟨rfl, rfl, rfl, Or.inl rfl⟩ ih

/-- C10.  `Get` is read-only on the cache structure: the configuration,
the eviction counter, the shard-array length, every other shard, and the
owning shard's entry count, capacity and hand are unchanged; every chain
of the owning shard other than the key's is unchanged; and the key's
chain is related node by node to its previous self by `nodeFrame` — same
value, hash and key everywhere, with at most the matched node's `freq`
bumped by exactly one (only when below 15) and its `lastAccess`
refreshed. -/
theorem C10_get_frame (hashKey : Clox.KeyBytes → Nat) (key : Clox.KeyBytes)
    (c : CloxCache V) :
    (Get hashKey key c).2.numShards = c.numShards ∧
    (Get hashKey key c).2.shardBits = c.shardBits ∧
    (Get hashKey key c).2.collectStats = c.collectStats ∧
    (Get hashKey key c).2.sweepPercent = c.sweepPercent ∧
    (Get hashKey key c).2.evictions = c.evictions ∧
    (Get hashKey key c).2.shards.length = c.shards.length ∧
    (∀ j, j ≠ shardIdOf c (hashKey key) →
      shardAt (Get hashKey key c).2 j = shardAt c j) ∧
    (shardAt (Get hashKey key c).2 (shardIdOf c (hashKey key))).entryCount =
      (shardAt c (shardIdOf c (hashKey key))).entryCount ∧
    (shardAt (Get hashKey key c).2 (shardIdOf c (hashKey key))).capacity =
      (shardAt c (shardIdOf c (hashKey key))).capacity ∧
    (shardAt (Get hashKey key c).2 (shardIdOf c (hashKey key))).hand =
      (shardAt c (shardIdOf c (hashKey key))).hand ∧
    (∀ q, q ≠ slotIdOf c (hashKey key) →
      Shard.chain (shardAt (Get hashKey key c).2 (shardIdOf c (hashKey key))) q =
        Shard.chain (shardAt c (shardIdOf c (hashKey key))) q) ∧
    List.Forall₂
      (nodeFrame (hashKey key) key (shardAt c (shardIdOf c (hashKey key))).timestamp)
      (Shard.chain (shardAt c (shardIdOf c (hashKey key))) (slotIdOf c (hashKey key)))
      (Shard.chain (shardAt (Get hashKey key c).2 (shardIdOf c (hashKey key)))
        (slotIdOf c (hashKey key))) := by
  unfold Get
  dsimp only
  split <;>
  · refine ⟨rfl, rfl, rfl, rfl, rfl, by simp, ?_, ?_, ?_, ?_, ?_, ?_⟩
    · intro j hj
      show (c.shards.set (shardIdOf c (hashKey key)) _).getD j (Shard.dflt V) =
        shardAt c j
      rw [Clox.getD_set, if_neg (fun hc => hj hc.1.symm)]
      rfl
    · show ((c.shards.set (shardIdOf c (hashKey key)) _).getD
        (shardIdOf c (hashKey key)) (Shard.dflt V)).entryCount = _
      rw [Clox.getD_set]
      by_cases hin : shardIdOf c (hashKey key) < c.shards.length
      · rw [if_pos ⟨rfl, hin⟩]
      · rw [if_neg (fun hc => hin hc.2)]
        rfl
    · show ((c.shards.set (shardIdOf c (hashKey key)) _).getD
        (shardIdOf c (hashKey key)) (Shard.dflt V)).capacity = _
      rw [Clox.getD_set]
      by_cases hin : shardIdOf c (hashKey key) < c.shards.length
      · rw [if_pos ⟨rfl, hin⟩]
      · rw [if_neg (fun hc => hin hc.2)]
        rfl
    · show ((c.shards.set (shardIdOf c (hashKey key)) _).getD
        (shardIdOf c (hashKey key)) (Shard.dflt V)).hand = _
      rw [Clox.getD_set]
      by_cases hin : shardIdOf c (hashKey key) < c.shards.length
      · rw [if_pos ⟨rfl, hin⟩]
      · rw [if_neg (fun hc => hin hc.2)]
        rfl
    · intro q hq
      show Shard.chain ((c.shards.set (shardIdOf c (hashKey key)) _).getD
        (shardIdOf c (hashKey key)) (Shard.dflt V)) q = _
      rw [Clox.getD_set]
      by_cases hin : shardIdOf c (hashKey key) < c.shards.length
      · rw [if_pos ⟨rfl, hin⟩]
        show ((shardAt c (shardIdOf c (hashKey key))).slots.set
          (slotIdOf c (hashKey key)) _).getD q [] = _
        rw [Clox.getD_set, if_neg (fun hc => hq hc.1.symm)]
        rfl
      · rw [if_neg (fun hc => hin hc.2)]
        rfl
    · show List.Forall₂ _ _ (Shard.chain ((c.shards.set (shardIdOf c (hashKey key)) _).getD
        (shardIdOf c (hashKey key)) (Shard.dflt V)) (slotIdOf c (hashKey key)))
      rw [Clox.getD_set]
      by_cases hin : shardIdOf c (hashKey key) < c.shards.length
      · rw [if_pos ⟨rfl, hin⟩]
        show List.Forall₂ _ _ (((shardAt c (shardIdOf c (hashKey key))).slots.set
          (slotIdOf c (hashKey key)) _).getD (slotIdOf c (hashKey key)) [])
        rw [Clox.getD_set]
        by_cases hsl : slotIdOf c (hashKey key) <
            (shardAt c (shardIdOf c (hashKey key))).slots.length
        · rw [if_pos ⟨rfl, hsl⟩]
          exact getWalk_frame _ _ _ _
        · rw [if_neg (fun hc => hsl hc.2)]
          exact List.forall₂_same.mpr (fun x _ => ⟨rfl, rfl, rfl, Or.inl rfl⟩)
      · rw [if_neg (fun hc => hin hc.2)]
        exact List.forall₂_same.mpr (fun x _ => ⟨rfl, rfl, rfl, Or.inl rfl⟩)

end PF
